import Mathlib

/-!
The PacketSerial framing engine (`src/PacketSerial/PacketSerial.h`)

A shallow embedding of the class template `PacketSerial_<EncoderType, PacketMarker,
ReceiveBufferSize>`: its private fields, the body of the `while` loop of `update()`,
`send`, both overloads of `setPacketHandler`, and `overflow`.

Modelling conventions.

* `uint8_t` is `Fin 256`; `size_t` values are natural numbers.  The only `size_t`
  arithmetic in the class is `_receiveBufferIndex + 1`, and the index never exceeds
  `ReceiveBufferSize`, so no wrap-around can occur.
* A function pointer is `Option Nat` (`none` is `nullptr`, `some k` the k-th handler
  function of the program); a `void*` sender is `Option Ptr`.
* The encoder class (`Encoding/COBS.h`, `Encoding/SLIP.h`) is a template parameter and
  is taken as a parameter `Codec`.
* Effects (calls of the codec, stores into `_receiveBuffer`, handler invocations, bytes
  written to the serial port) are recorded, in program order, in a trace of `Event`s.
* A handler is foreign code.  What it does to the engine is given by a table
  `Handlers` mapping each invocation to the list of public methods it calls while it
  runs (possibly `update()` itself).
-/

namespace PacketSerial

/-- The C type `uint8_t`. -/
abbrev Byte := Fin 256

/-- A non-null `void*` handed to a handler as `sender`: the engine itself (`this`) or
some other object. -/
inductive Ptr where
  | self
  | addr (a : Nat)
  deriving DecidableEq, Repr

/-- The static encoder class `EncoderType`.  `encode input` and `decode input` give the
contents left in the output array and the returned count (`numEncoded`, `numDecoded`);
`input` is the `size` bytes the caller passed. -/
structure Codec where
  encode : List Byte → List Byte × Nat
  decode : List Byte → List Byte × Nat
  getEncodedBufferSize : Nat → Nat

/-- The bytes an `encode` call produced: the first `numEncoded` bytes of its output. -/
def Codec.encoded (E : Codec) (x : List Byte) : List Byte :=
  (E.encode x).1.take (E.encode x).2

/-- The bytes a `decode` call produced: the first `numDecoded` bytes of its output. -/
def Codec.decoded (E : Codec) (x : List Byte) : List Byte :=
  (E.decode x).1.take (E.decode x).2

/-- The template parameters of `PacketSerial_`. -/
structure Config where
  EncoderType : Codec
  PacketMarker : Byte
  ReceiveBufferSize : Nat

/-- The private fields of `PacketSerial_`. -/
structure PacketSerial_ where
  _recieveBufferOverflow : Bool
  _receiveBuffer : List Byte
  _receiveBufferIndex : Nat
  _onPacketFunction : Option Nat
  _onPacketFunctionWithSender : Option Nat
  _senderPtr : Option Ptr
  deriving DecidableEq, Repr

/-- A handler invocation: `_onPacketFunction(_decodeBuffer, numDecoded)` or
`_onPacketFunctionWithSender(_senderPtr, _decodeBuffer, numDecoded)`. -/
inductive Call where
  | plain (f : Nat) (buffer : List Byte) (size : Nat)
  | withSender (f : Nat) (sender : Option Ptr) (buffer : List Byte) (size : Nat)
  deriving DecidableEq, Repr

/-- The payload a handler sees: the first `size` bytes of `buffer`. -/
def Call.payload : Call → List Byte
  | .plain _ buffer size => buffer.take size
  | .withSender _ _ buffer size => buffer.take size

/-- Observable effects, in program order. -/
inductive Event where
  | decode (input : List Byte)
  | store (index : Nat) (data : Byte)
  | invoke (c : Call)
  | getEncodedBufferSize (size : Nat)
  | encode (input : List Byte)
  | write (b : Byte)
  deriving DecidableEq, Repr

/-- The handler invocations of a trace, in order. -/
def calls : List Event → List Call
  | [] => []
  | .invoke c :: t => c :: calls t
  | _ :: t => calls t

/-- The bytes written to the serial port by a trace, in order. -/
def written : List Event → List Byte
  | [] => []
  | .write b :: t => b :: written t
  | _ :: t => written t

/-- The inputs of the `encode` calls of a trace, in order. -/
def encodeCalls : List Event → List (List Byte)
  | [] => []
  | .encode input :: t => input :: encodeCalls t
  | _ :: t => encodeCalls t

/-- The constructor `PacketSerial_()`.  `mem` is the indeterminate initial content of
the array `_receiveBuffer[ReceiveBufferSize]`. -/
def construct (mem : List Byte) : PacketSerial_ :=
  { _recieveBufferOverflow := false
    _receiveBuffer := mem
    _receiveBufferIndex := 0
    _onPacketFunction := none
    _onPacketFunctionWithSender := none
    _senderPtr := none }

/-- Result of the loop body of `update()` for one byte: the new fields, the effects up
to the handler call, and the handler call made last (if any). -/
structure Step where
  engine : PacketSerial_
  events : List Event
  call : Option Call
  deriving DecidableEq, Repr

/-- The body of the `while` loop of `update()` for the byte `data` just read. -/
def onData (C : Config) (e : PacketSerial_) (data : Byte) : Step :=
  if data = C.PacketMarker then
    if e._onPacketFunction.isSome || e._onPacketFunctionWithSender.isSome then
      let input := e._receiveBuffer.take e._receiveBufferIndex
      let dec := C.EncoderType.decode input
      let e1 := { e with _receiveBufferIndex := 0, _recieveBufferOverflow := false }
      match e._onPacketFunction with
      | some f => ⟨e1, [.decode input], some (.plain f dec.1 dec.2)⟩
      | none =>
        match e._onPacketFunctionWithSender with
        | some g => ⟨e1, [.decode input], some (.withSender g e._senderPtr dec.1 dec.2)⟩
        | none => ⟨e1, [.decode input], none⟩
    else
      ⟨{ e with _receiveBufferIndex := 0, _recieveBufferOverflow := false }, [], none⟩
  else
    if e._receiveBufferIndex + 1 < C.ReceiveBufferSize then
      ⟨{ e with
          _receiveBuffer := e._receiveBuffer.set e._receiveBufferIndex data
          _receiveBufferIndex := e._receiveBufferIndex + 1 },
        [.store e._receiveBufferIndex data], none⟩
    else
      ⟨{ e with _recieveBufferOverflow := true }, [], none⟩

/-- All effects of one loop body, the handler call included. -/
def Step.effects (r : Step) : List Event :=
  r.events ++ (match r.call with
    | none => []
    | some c => [.invoke c])

/-- The method `send(buffer, size)`.  It is `const`: it only has effects.  `buffer` is
`none` for `nullptr`, otherwise the memory it points to. -/
def send (C : Config) (buffer : Option (List Byte)) (size : Nat) : List Event :=
  match buffer with
  | none => []
  | some mem =>
    if size = 0 then []
    else
      let enc := C.EncoderType.encode (mem.take size)
      [.getEncodedBufferSize size, .encode (mem.take size)]
        ++ (List.range enc.2).map (fun i => Event.write (enc.1.getD i 0))
        ++ [.write C.PacketMarker]

/-- The method `setPacketHandler(PacketHandlerFunction)`. -/
def setPacketHandler (e : PacketSerial_) (onPacketFunction : Option Nat) : PacketSerial_ :=
  { e with
    _onPacketFunction := onPacketFunction
    _onPacketFunctionWithSender := none
    _senderPtr := none }

/-- The method `setPacketHandler(PacketHandlerFunctionWithSender, void*)`. -/
def setPacketHandlerWithSender (e : PacketSerial_) (onPacketFunctionWithSender : Option Nat)
    (senderPtr : Option Ptr) : PacketSerial_ :=
  let e1 := { e with
    _onPacketFunction := none
    _onPacketFunctionWithSender := onPacketFunctionWithSender
    _senderPtr := senderPtr }
  if senderPtr.isNone then { e1 with _senderPtr := some Ptr.self } else e1

/-- The method `overflow()`. -/
def overflow (e : PacketSerial_) : Bool :=
  e._recieveBufferOverflow

/-- A call of a public method of the engine. -/
inductive Action where
  | update
  | send (buffer : Option (List Byte)) (size : Nat)
  | setPacketHandler (onPacketFunction : Option Nat)
  | setPacketHandlerWithSender (onPacketFunctionWithSender : Option Nat)
      (senderPtr : Option Ptr)
  | overflow
  deriving DecidableEq, Repr

/-- What each handler invocation does to the engine while it runs. -/
abbrev Handlers := Call → List Action

/-- The engine together with its serial port: `rx` holds the bytes `Serial.read()` will
return while `Serial.available() > 0`, `trace` the effects so far. -/
structure World where
  engine : PacketSerial_
  rx : List Byte
  trace : List Event
  deriving DecidableEq, Repr

/-- One method call, given the meaning `upd` of `update()`. -/
def performWith (C : Config) (upd : World → World) (a : Action) (w : World) : World :=
  match a with
  | .update => upd w
  | .send buffer size => { w with trace := w.trace ++ send C buffer size }
  | .setPacketHandler f => { w with engine := setPacketHandler w.engine f }
  | .setPacketHandlerWithSender f p =>
    { w with engine := setPacketHandlerWithSender w.engine f p }
  | .overflow => w

/-- The world right after the loop body of `update()` has run on the byte `data` read
from the port (leaving `rest` pending): the moment at which the handler, if any, gets
control. -/
def afterBody (C : Config) (w : World) (data : Byte) (rest : List Byte) : World :=
  { engine := (onData C w.engine data).engine
    rx := rest
    trace := w.trace ++ (onData C w.engine data).effects }

/-- The handler invoked by `call` runs: it performs its method calls in order, `upd`
being the meaning of `update()`. -/
def runHandler (C : Config) (H : Handlers) (upd : World → World) (call : Option Call)
    (w : World) : World :=
  match call with
  | none => w
  | some c => (H c).foldl (fun v a => performWith C upd a v) w

/-- The `while (Serial.available() > 0)` loop of `update()`.  Every iteration reads one
byte, so `fuel` at least the number of pending bytes is enough; a handler that calls
`update()` runs the same loop on the bytes still pending. -/
def loop (C : Config) (H : Handlers) : Nat → World → World
  | 0, w => w
  | fuel + 1, w =>
    match w.rx with
    | [] => w
    | data :: rest =>
      loop C H fuel
        (runHandler C H (fun v => loop C H fuel v) (onData C w.engine data).call
          (afterBody C w data rest))

/-- The method `update()`. -/
def update (C : Config) (H : Handlers) (w : World) : World :=
  loop C H w.rx.length w

/-- What the caller of the engine can do: let bytes arrive on the serial port, or call
a public method. -/
inductive Op where
  | receive (bytes : List Byte)
  | call (a : Action)
  deriving DecidableEq, Repr

/-- One operation of the caller. -/
def applyOp (C : Config) (H : Handlers) (w : World) : Op → World
  | .receive bytes => { w with rx := w.rx ++ bytes }
  | .call a => performWith C (update C H) a w

/-- A finite sequence of operations. -/
def run (C : Config) (H : Handlers) (ops : List Op) (w : World) : World :=
  ops.foldl (applyOp C H) w

/-- A freshly constructed engine with idle serial port. -/
def fresh (mem : List Byte) : World :=
  { engine := construct mem, rx := [], trace := [] }

/-- Handlers that call no method of the engine. -/
def quiet : Handlers := fun _ => []

/-- Feeding bytes one by one to an engine whose handlers do not call back: the final
fields and all effects. -/
def feed (C : Config) : PacketSerial_ → List Byte → PacketSerial_ × List Event
  | e, [] => (e, [])
  | e, data :: rest =>
    let r := onData C e data
    let q := feed C r.engine rest
    (q.1, r.effects ++ q.2)

/-- A codec that copies its input: a test double for the encoder parameter. -/
def copyCodec : Codec :=
  { encode := fun x => (x, x.length)
    decode := fun x => (x, x.length)
    getEncodedBufferSize := fun n => n }

/-- A small instance for evaluation: marker `0x00`, a four-byte receive buffer, the
copying codec. -/
def smallConfig : Config :=
  { EncoderType := copyCodec, PacketMarker := 0, ReceiveBufferSize := 4 }

/-- A non-null handler function of either shape. -/
inductive HandlerFn where
  | plain (f : Nat)
  | withSender (g : Nat)
  deriving DecidableEq, Repr

/-- The handler function a call invokes. -/
def Call.fn : Call → HandlerFn
  | .plain f _ _ => .plain f
  | .withSender g _ _ _ => .withSender g

/-- Registering a non-null handler with the overload of `setPacketHandler` for its
shape (`senderPtr` is the optional second argument of the with-sender overload). -/
def registerHandler (e : PacketSerial_) (h : HandlerFn) (senderPtr : Option Ptr) :
    PacketSerial_ :=
  match h with
  | .plain f => setPacketHandler e (some f)
  | .withSender g => setPacketHandlerWithSender e (some g) senderPtr

/-- The caller's polling pattern when bytes arrive one at a time: each byte becomes
available and `update()` is called. -/
def byteByByte (bytes : List Byte) : List Op :=
  bytes.flatMap (fun b => [Op.receive [b], Op.call Action.update])

/-- The receive-buffer bound: the index is below the capacity (or zero), and every
store recorded so far went to an index below the capacity. -/
def Bounded (C : Config) (w : World) : Prop :=
  (w.engine._receiveBufferIndex < C.ReceiveBufferSize ∨ w.engine._receiveBufferIndex = 0)
    ∧ ∀ i b, Event.store i b ∈ w.trace → i < C.ReceiveBufferSize

/-- The handler slots of `e` are such that a delivery invokes `h`: the plain slot holds
`h`, or the plain slot is null and the with-sender slot holds `h`. -/
def Holds (e : PacketSerial_) : HandlerFn → Prop
  | .plain f => e._onPacketFunction = some f
  | .withSender g => e._onPacketFunction = none ∧ e._onPacketFunctionWithSender = some g

/-- The `size` argument of a handler invocation. -/
def Call.size : Call → Nat
  | .plain _ _ size => size
  | .withSender _ _ _ size => size

/-- Reference reading of an input stream: the runs of bytes between markers, one per
marker in the stream and in order, and the bytes after the last marker. -/
def splitFrames (marker : Byte) : List Byte → List (List Byte) × List Byte
  | [] => ([], [])
  | b :: t =>
    if b = marker then ([] :: (splitFrames marker t).1, (splitFrames marker t).2)
    else
      match (splitFrames marker t).1 with
      | [] => ([], b :: (splitFrames marker t).2)
      | f :: fs => ((b :: f) :: fs, (splitFrames marker t).2)

/-- Reference deliveries for an input stream: for every marker, decode applied to the
first `min n (ReceiveBufferSize - 1)` of the `n` bytes received since the previous
marker (or since the start). -/
def referencePayloads (C : Config) (bytes : List Byte) : List (List Byte) :=
  (splitFrames C.PacketMarker bytes).1.map
    (fun f => C.EncoderType.decoded (f.take (min f.length (C.ReceiveBufferSize - 1))))

/-- The fields of `e` reflect that `cur` are the bytes received since the last marker:
the array has `ReceiveBufferSize` elements, the first `ReceiveBufferSize - 1` bytes of
`cur` are held, and the overflow flag tells whether there were more. -/
def Tracks (C : Config) (e : PacketSerial_) (cur : List Byte) : Prop :=
  e._receiveBuffer.length = C.ReceiveBufferSize
    ∧ e._receiveBufferIndex = min cur.length (C.ReceiveBufferSize - 1)
    ∧ e._receiveBuffer.take e._receiveBufferIndex = cur.take (C.ReceiveBufferSize - 1)
    ∧ e._recieveBufferOverflow = decide (C.ReceiveBufferSize - 1 < cur.length)
    ∧ ∀ b ∈ cur, b ≠ C.PacketMarker

/-- No marker in the occupied part of the receive buffer, and none in any input that
was handed to `decode`. -/
def MarkerFree (C : Config) (w : World) : Prop :=
  (∀ b ∈ w.engine._receiveBuffer.take w.engine._receiveBufferIndex, b ≠ C.PacketMarker)
    ∧ ∀ input, Event.decode input ∈ w.trace → C.PacketMarker ∉ input

end PacketSerial

namespace DPS310

/-- Conversion of a `uint32_t` value to `int32_t`: values from 2^31 on wrap to the
negative range. -/
def toInt32 (u : Nat) : Int :=
  if u % 4294967296 < 2147483648 then ((u % 4294967296 : Nat) : Int)
  else ((u % 4294967296 : Nat) : Int) - 4294967296

/-- The function `two_complement(val, bits)` of `src/dps310/dps310.cpp`.  `val` is a
`uint32_t`; both shifts and the subtraction are 32-bit unsigned, and the result is
converted to `int32_t` by the assignment to `val_out`.  (`bits - 1` is computed in
`int`; the shift is only defined for `bits >= 1`.) -/
def two_complement (val bits : Nat) : Int :=
  if val &&& ((1 <<< (bits - 1)) % 4294967296) ≠ 0 then
    toInt32 ((val + 4294967296 - (1 <<< bits) % 4294967296) % 4294967296)
  else
    toInt32 val

end DPS310

namespace PacketSerial

/-! ## The loop of `update()` -/

theorem loop_nil (C : Config) (H : Handlers) (fuel : Nat) (w : World) (h : w.rx = []) :
    loop C H fuel w = w := by
  cases fuel with
  | zero => rfl
  | succ n => simp [loop, h]

theorem loop_cons (C : Config) (H : Handlers) (fuel : Nat) (w : World) (data : Byte)
    (rest : List Byte) (h : w.rx = data :: rest) :
    loop C H (fuel + 1) w =
      loop C H fuel
        (runHandler C H (fun v => loop C H fuel v) (onData C w.engine data).call
          (afterBody C w data rest)) := by
  simp [loop, h]

/-- A method call other than `update()` leaves the pending bytes alone. -/
theorem performWith_rx (C : Config) (upd : World → World) (a : Action) (w : World)
    (n : Nat) (hupd : ∀ v, v.rx.length ≤ n → (upd v).rx.length ≤ n) (h : w.rx.length ≤ n) :
    (performWith C upd a w).rx.length ≤ n := by
  cases a <;> simp [performWith, h]
  exact hupd w h

theorem foldl_performWith_rx (C : Config) (upd : World → World) (n : Nat)
    (hupd : ∀ v, v.rx.length ≤ n → (upd v).rx.length ≤ n) (as : List Action) :
    ∀ w : World, w.rx.length ≤ n →
      (as.foldl (fun v a => performWith C upd a v) w).rx.length ≤ n := by
  induction as with
  | nil => intro w h; simpa using h
  | cons a t ih =>
    intro w h
    simp only [List.foldl_cons]
    exact ih _ (performWith_rx C upd a w n hupd h)

theorem runHandler_rx (C : Config) (H : Handlers) (upd : World → World) (n : Nat)
    (hupd : ∀ v, v.rx.length ≤ n → (upd v).rx.length ≤ n) (call : Option Call) (w : World)
    (h : w.rx.length ≤ n) : (runHandler C H upd call w).rx.length ≤ n := by
  cases call with
  | none => simpa [runHandler] using h
  | some c => simpa [runHandler] using foldl_performWith_rx C upd n hupd (H c) w h

/-- The loop never makes more bytes pending. -/
theorem loop_rx_le (C : Config) (H : Handlers) :
    ∀ (fuel : Nat) (w : World) (n : Nat), w.rx.length ≤ n → (loop C H fuel w).rx.length ≤ n := by
  intro fuel
  induction fuel with
  | zero => intro w n h; simpa [loop] using h
  | succ k ih =>
    intro w n h
    cases hrx : w.rx with
    | nil => rw [loop_nil C H _ w hrx]; exact h
    | cons data rest =>
      rw [loop_cons C H k w data rest hrx]
      apply ih
      apply runHandler_rx C H _ n (fun v hv => ih v n hv)
      have : rest.length ≤ n := by rw [hrx] at h; simp at h; omega
      simpa [afterBody] using this

/-- With fuel for every pending byte the loop ends only when the port is drained. -/
theorem loop_drains (C : Config) (H : Handlers) :
    ∀ (fuel : Nat) (w : World), w.rx.length ≤ fuel → (loop C H fuel w).rx = [] := by
  intro fuel
  induction fuel with
  | zero =>
    intro w h
    have : w.rx = [] := List.length_eq_zero.mp (Nat.le_zero.mp h)
    simpa [loop] using this
  | succ k ih =>
    intro w h
    cases hrx : w.rx with
    | nil => rw [loop_nil C H _ w hrx]; exact hrx
    | cons data rest =>
      rw [loop_cons C H k w data rest hrx]
      apply ih
      apply runHandler_rx C H _ k (fun v hv => loop_rx_le C H k v k hv)
      have : rest.length ≤ k := by rw [hrx] at h; simp at h; omega
      simpa [afterBody] using this

theorem foldl_performWith_congr (C : Config) (f g : World → World) (n : Nat)
    (hf : ∀ v, v.rx.length ≤ n → (f v).rx.length ≤ n)
    (hfg : ∀ v, v.rx.length ≤ n → f v = g v) (as : List Action) :
    ∀ w : World, w.rx.length ≤ n →
      as.foldl (fun v a => performWith C f a v) w
        = as.foldl (fun v a => performWith C g a v) w := by
  induction as with
  | nil => intro w _; rfl
  | cons a t ih =>
    intro w h
    simp only [List.foldl_cons]
    have e : performWith C f a w = performWith C g a w := by
      cases a <;> simp [performWith]
      exact hfg w h
    rw [← e]
    exact ih _ (performWith_rx C f a w n hf h)

/-- Fuel beyond the number of pending bytes changes nothing. -/
theorem loop_fuel (C : Config) (H : Handlers) :
    ∀ (f g : Nat) (w : World), w.rx.length ≤ f → w.rx.length ≤ g →
      loop C H f w = loop C H g w := by
  intro f
  induction f with
  | zero =>
    intro g w h _
    have : w.rx = [] := List.length_eq_zero.mp (Nat.le_zero.mp h)
    rw [loop_nil C H _ w this, loop_nil C H _ w this]
  | succ k ih =>
    intro g w hf hg
    cases hrx : w.rx with
    | nil => rw [loop_nil C H _ w hrx, loop_nil C H _ w hrx]
    | cons data rest =>
      have hk : rest.length ≤ k := by rw [hrx] at hf; simp at hf; omega
      cases g with
      | zero => rw [hrx] at hg; simp at hg
      | succ j =>
        have hj : rest.length ≤ j := by rw [hrx] at hg; simp at hg; omega
        rw [loop_cons C H k w data rest hrx, loop_cons C H j w data rest hrx]
        have hab : (afterBody C w data rest).rx.length ≤ rest.length := by simp [afterBody]
        have e : runHandler C H (fun v => loop C H k v) (onData C w.engine data).call
              (afterBody C w data rest)
            = runHandler C H (fun v => loop C H j v) (onData C w.engine data).call
              (afterBody C w data rest) := by
          cases (onData C w.engine data).call with
          | none => rfl
          | some c =>
            simp only [runHandler]
            exact foldl_performWith_congr C _ _ rest.length
              (fun v hv => loop_rx_le C H k v _ hv)
              (fun v hv => ih j v (le_trans hv hk) (le_trans hv hj)) (H c) _ hab
        rw [← e]
        apply ih
        · exact le_trans (runHandler_rx C H _ rest.length
            (fun v hv => loop_rx_le C H k v _ hv) _ _ hab) hk
        · exact le_trans (runHandler_rx C H _ rest.length
            (fun v hv => loop_rx_le C H k v _ hv) _ _ hab) hj

/-- With enough fuel the loop is `update()`. -/
theorem loop_eq_update (C : Config) (H : Handlers) (fuel : Nat) (w : World)
    (h : w.rx.length ≤ fuel) : loop C H fuel w = update C H w :=
  loop_fuel C H fuel w.rx.length w h (le_refl _)

theorem update_nil (C : Config) (H : Handlers) (w : World) (h : w.rx = []) :
    update C H w = w :=
  loop_nil C H _ w h

/-- The recursion equation of `update()`: read a byte, run the loop body, let the
handler (which may itself call `update()`) run, go round the loop again. -/
theorem update_cons (C : Config) (H : Handlers) (w : World) (data : Byte)
    (rest : List Byte) (h : w.rx = data :: rest) :
    update C H w =
      update C H
        (runHandler C H (update C H) (onData C w.engine data).call
          (afterBody C w data rest)) := by
  have hab : (afterBody C w data rest).rx.length ≤ rest.length := by simp [afterBody]
  have hlen : w.rx.length = rest.length + 1 := by rw [h]; simp
  have e : runHandler C H (fun v => loop C H rest.length v) (onData C w.engine data).call
        (afterBody C w data rest)
      = runHandler C H (update C H) (onData C w.engine data).call
        (afterBody C w data rest) := by
    cases (onData C w.engine data).call with
    | none => rfl
    | some c =>
      simp only [runHandler]
      exact foldl_performWith_congr C _ _ rest.length
        (fun v hv => loop_rx_le C H _ v _ hv)
        (fun v hv => loop_eq_update C H _ v hv) (H c) _ hab
  unfold update
  rw [hlen, loop_cons C H rest.length w data rest h]
  rw [e]
  apply loop_eq_update
  rw [← e]
  exact runHandler_rx C H _ rest.length (fun v hv => loop_rx_le C H _ v _ hv) _ _ hab

theorem update_drains (C : Config) (H : Handlers) (w : World) : (update C H w).rx = [] :=
  loop_drains C H _ w (le_refl _)

/-- An invariant of the loop body and of the other public methods is an invariant of
the loop, whatever the handlers do. -/
theorem loop_invariant (C : Config) (H : Handlers) (I : World → Prop)
    (hbody : ∀ (w : World) (data : Byte) (rest : List Byte),
      I w → w.rx = data :: rest → I (afterBody C w data rest))
    (hact : ∀ (upd : World → World) (a : Action) (w : World),
      (∀ v, I v → I (upd v)) → I w → I (performWith C upd a w)) :
    ∀ (fuel : Nat) (w : World), I w → I (loop C H fuel w) := by
  intro fuel
  induction fuel with
  | zero => intro w h; simpa [loop] using h
  | succ k ih =>
    intro w h
    cases hrx : w.rx with
    | nil => rw [loop_nil C H _ w hrx]; exact h
    | cons data rest =>
      rw [loop_cons C H k w data rest hrx]
      apply ih
      have hb := hbody w data rest h hrx
      cases (onData C w.engine data).call with
      | none => simpa [runHandler] using hb
      | some c =>
        simp only [runHandler]
        have key : ∀ (as : List Action) (v : World), I v →
            I (as.foldl (fun v a => performWith C (fun v => loop C H k v) a v) v) := by
          intro as
          induction as with
          | nil => intro v hv; simpa using hv
          | cons a t iht =>
            intro v hv
            simp only [List.foldl_cons]
            exact iht _ (hact _ a v (fun u hu => ih u hu) hv)
        exact key (H c) _ hb

theorem run_invariant (C : Config) (H : Handlers) (I : World → Prop)
    (hbody : ∀ (w : World) (data : Byte) (rest : List Byte),
      I w → w.rx = data :: rest → I (afterBody C w data rest))
    (hact : ∀ (upd : World → World) (a : Action) (w : World),
      (∀ v, I v → I (upd v)) → I w → I (performWith C upd a w))
    (hrecv : ∀ (w : World) (bytes : List Byte), I w → I { w with rx := w.rx ++ bytes }) :
    ∀ (ops : List Op) (w : World), I w → I (run C H ops w) := by
  intro ops
  induction ops with
  | nil => intro w h; simpa [run] using h
  | cons o t ih =>
    intro w h
    have e : run C H (o :: t) w = run C H t (applyOp C H w o) := by simp [run]
    rw [e]
    apply ih
    cases o with
    | receive bytes => exact hrecv w bytes h
    | call a =>
      exact hact _ a w (fun v hv => loop_invariant C H I hbody hact _ v hv) h

theorem store_not_mem_send (C : Config) (buffer : Option (List Byte)) (size i : Nat)
    (b : Byte) : Event.store i b ∉ send C buffer size := by
  cases buffer with
  | none => simp [send]
  | some mem =>
    by_cases hs : size = 0
    · simp [send, hs]
    · simp [send, hs]

theorem Bounded_afterBody (C : Config) (w : World) (data : Byte) (rest : List Byte)
    (h : Bounded C w) : Bounded C (afterBody C w data rest) := by
  obtain ⟨hi, ht⟩ := h
  unfold Bounded afterBody onData Step.effects
  by_cases hm : data = C.PacketMarker
  · by_cases hh : (w.engine._onPacketFunction.isSome
        || w.engine._onPacketFunctionWithSender.isSome) = true
    · simp only [hm, hh, if_true]
      cases w.engine._onPacketFunction with
      | some f =>
        refine ⟨Or.inr rfl, ?_⟩
        intro i b hmem
        simp at hmem
        exact ht i b hmem
      | none =>
        cases w.engine._onPacketFunctionWithSender with
        | some g =>
          refine ⟨Or.inr rfl, ?_⟩
          intro i b hmem
          simp at hmem
          exact ht i b hmem
        | none =>
          refine ⟨Or.inr rfl, ?_⟩
          intro i b hmem
          simp at hmem
          exact ht i b hmem
    · simp only [hm, hh, if_true]
      refine ⟨Or.inr rfl, ?_⟩
      intro i b hmem
      simp at hmem
      exact ht i b hmem
  · by_cases hc : w.engine._receiveBufferIndex + 1 < C.ReceiveBufferSize
    · simp only [hm, hc, if_true, if_false]
      refine ⟨Or.inl trivial, ?_⟩
      intro i b hmem
      simp at hmem
      rcases hmem with hmem | ⟨rfl, _⟩
      · exact ht i b hmem
      · omega
    · simp only [hm, hc, if_false]
      refine ⟨hi, ?_⟩
      intro i b hmem
      simp at hmem
      exact ht i b hmem

theorem Bounded_performWith (C : Config) (upd : World → World) (a : Action) (w : World)
    (hupd : ∀ v, Bounded C v → Bounded C (upd v)) (h : Bounded C w) :
    Bounded C (performWith C upd a w) := by
  cases a with
  | update => exact hupd w h
  | send buffer size =>
    refine ⟨h.1, ?_⟩
    intro i b hmem
    simp only [performWith, List.mem_append] at hmem
    rcases hmem with hmem | hmem
    · exact h.2 i b hmem
    · exact absurd hmem (store_not_mem_send C buffer size i b)
  | setPacketHandler f => exact ⟨h.1, h.2⟩
  | setPacketHandlerWithSender f p =>
    refine ⟨?_, h.2⟩
    have : (setPacketHandlerWithSender w.engine f p)._receiveBufferIndex
        = w.engine._receiveBufferIndex := by
      unfold setPacketHandlerWithSender
      cases p <;> rfl
    simpa [performWith, this] using h.1
  | overflow => exact h

/-! ## Handlers that do not call back: `update()` is `feed` -/

theorem loop_quiet (C : Config) :
    ∀ (fuel : Nat) (w : World), w.rx.length ≤ fuel →
      loop C quiet fuel w =
        { engine := (feed C w.engine w.rx).1
          rx := []
          trace := w.trace ++ (feed C w.engine w.rx).2 } := by
  intro fuel
  induction fuel with
  | zero =>
    intro w h
    have hrx : w.rx = [] := List.length_eq_zero.mp (Nat.le_zero.mp h)
    cases w with
    | mk e rx t =>
      simp only at hrx
      subst hrx
      simp [loop, feed]
  | succ k ih =>
    intro w h
    cases w with
    | mk e rx t =>
      cases rx with
      | nil => simp [loop, feed]
      | cons data rest =>
        rw [loop_cons C quiet k _ data rest rfl]
        have hq : runHandler C quiet (fun v => loop C quiet k v) (onData C e data).call
            (afterBody C ⟨e, data :: rest, t⟩ data rest)
            = afterBody C ⟨e, data :: rest, t⟩ data rest := by
          cases (onData C e data).call <;> simp [runHandler, quiet]
        simp only at hq
        rw [hq, ih]
        · simp [afterBody, feed, List.append_assoc]
        · simp [afterBody] at h ⊢
          omega

theorem update_quiet (C : Config) (w : World) :
    update C quiet w =
      { engine := (feed C w.engine w.rx).1
        rx := []
        trace := w.trace ++ (feed C w.engine w.rx).2 } :=
  loop_quiet C _ w (le_refl _)

theorem feed_append (C : Config) :
    ∀ (xs ys : List Byte) (e : PacketSerial_),
      feed C e (xs ++ ys) =
        ((feed C (feed C e xs).1 ys).1, (feed C e xs).2 ++ (feed C (feed C e xs).1 ys).2) := by
  intro xs
  induction xs with
  | nil => intro ys e; simp [feed]
  | cons x t ih =>
    intro ys e
    simp [feed, ih, List.append_assoc]

theorem run_byteByByte_quiet (C : Config) :
    ∀ (bytes : List Byte) (w : World), w.rx = [] →
      run C quiet (byteByByte bytes) w =
        { engine := (feed C w.engine bytes).1
          rx := []
          trace := w.trace ++ (feed C w.engine bytes).2 } := by
  intro bytes
  induction bytes with
  | nil =>
    intro w h
    cases w with
    | mk e rx t =>
      simp only at h
      subst h
      simp [run, byteByByte, feed]
  | cons b t ih =>
    intro w h
    cases w with
    | mk e rx tr =>
      simp only at h
      subst h
      have e1 : run C quiet (byteByByte (b :: t)) ⟨e, [], tr⟩
          = run C quiet (byteByByte t) (update C quiet ⟨e, [b], tr⟩) := by
        simp [run, byteByByte, applyOp, performWith]
      rw [e1, update_quiet, ih _ rfl]
      simp [feed, List.append_assoc]

theorem calls_append (s t : List Event) : calls (s ++ t) = calls s ++ calls t := by
  induction s with
  | nil => rfl
  | cons a s ih => cases a <;> simp [calls, ih]

/-- The loop body never touches the handler slots or the sender pointer. -/
theorem onData_slots (C : Config) (e : PacketSerial_) (data : Byte) :
    (onData C e data).engine._onPacketFunction = e._onPacketFunction
      ∧ (onData C e data).engine._onPacketFunctionWithSender = e._onPacketFunctionWithSender
      ∧ (onData C e data).engine._senderPtr = e._senderPtr := by
  unfold onData
  split
  · split
    · split
      · exact ⟨rfl, rfl, rfl⟩
      · split <;> exact ⟨rfl, rfl, rfl⟩
    · exact ⟨rfl, rfl, rfl⟩
  · split <;> exact ⟨rfl, rfl, rfl⟩

/-- The loop body never changes the size of the array. -/
theorem onData_length (C : Config) (e : PacketSerial_) (data : Byte) :
    (onData C e data).engine._receiveBuffer.length = e._receiveBuffer.length := by
  unfold onData
  split
  · split
    · split
      · rfl
      · split <;> rfl
    · rfl
  · split
    · simp
    · rfl

/-- The loop body on a byte that is not the marker. -/
theorem onData_data (C : Config) (e : PacketSerial_) (data : Byte)
    (h : data ≠ C.PacketMarker) :
    onData C e data =
      if e._receiveBufferIndex + 1 < C.ReceiveBufferSize then
        ⟨{ e with
            _receiveBuffer := e._receiveBuffer.set e._receiveBufferIndex data
            _receiveBufferIndex := e._receiveBufferIndex + 1 },
          [.store e._receiveBufferIndex data], none⟩
      else
        ⟨{ e with _recieveBufferOverflow := true }, [], none⟩ := by
  unfold onData
  rw [if_neg h]

/-- The loop body on the marker when a delivery invokes `h`. -/
theorem onData_marker_holds (C : Config) (e : PacketSerial_) (h : HandlerFn)
    (hh : Holds e h) :
    ∃ c, onData C e C.PacketMarker =
        ⟨{ e with _receiveBufferIndex := 0, _recieveBufferOverflow := false },
          [.decode (e._receiveBuffer.take e._receiveBufferIndex)], some c⟩
      ∧ c.fn = h
      ∧ c.payload = C.EncoderType.decoded (e._receiveBuffer.take e._receiveBufferIndex) := by
  cases h with
  | plain f =>
    simp only [Holds] at hh
    refine ⟨.plain f (C.EncoderType.decode (e._receiveBuffer.take e._receiveBufferIndex)).1
      (C.EncoderType.decode (e._receiveBuffer.take e._receiveBufferIndex)).2, ?_, rfl, rfl⟩
    simp [onData, hh]
  | withSender g =>
    simp only [Holds] at hh
    refine ⟨.withSender g e._senderPtr
      (C.EncoderType.decode (e._receiveBuffer.take e._receiveBufferIndex)).1
      (C.EncoderType.decode (e._receiveBuffer.take e._receiveBufferIndex)).2, ?_, rfl, rfl⟩
    simp [onData, hh.1, hh.2]

theorem Holds_registerHandler (e : PacketSerial_) (h : HandlerFn) (p : Option Ptr) :
    Holds (registerHandler e h p) h := by
  cases h with
  | plain f => simp [Holds, registerHandler, setPacketHandler]
  | withSender g =>
    cases p <;> simp [Holds, registerHandler, setPacketHandlerWithSender]

theorem Holds_of_slots (e e1 : PacketSerial_) (h : HandlerFn)
    (h1 : e1._onPacketFunction = e._onPacketFunction)
    (h2 : e1._onPacketFunctionWithSender = e._onPacketFunctionWithSender)
    (hh : Holds e h) : Holds e1 h := by
  cases h with
  | plain f => simp only [Holds] at hh ⊢; rw [h1]; exact hh
  | withSender g => simp only [Holds] at hh ⊢; rw [h1, h2]; exact hh

theorem take_succ_set (l : List Byte) (n : Nat) (b : Byte) (h : n < l.length) :
    (l.set n b).take (n + 1) = l.take n ++ [b] := by
  rw [List.set_eq_take_append_cons_drop, if_pos h]
  have hl : (l.take n).length = n := by simp; omega
  rw [List.take_append_eq_append_take, hl]
  simp

/-- Bytes other than the marker, fed to an engine whose array has `ReceiveBufferSize`
elements: as many as fit below index `ReceiveBufferSize - 1` are appended after the
bytes already held, the others are dropped and raise the overflow flag; no handler is
invoked and the slots are kept. -/
theorem feed_data (C : Config) :
    ∀ (xs : List Byte) (e : PacketSerial_), (∀ b ∈ xs, b ≠ C.PacketMarker) →
      e._receiveBuffer.length = C.ReceiveBufferSize →
      (feed C e xs).1._receiveBufferIndex
          = e._receiveBufferIndex
            + min xs.length (C.ReceiveBufferSize - 1 - e._receiveBufferIndex)
        ∧ (feed C e xs).1._receiveBuffer.take (feed C e xs).1._receiveBufferIndex
          = e._receiveBuffer.take e._receiveBufferIndex
            ++ xs.take (C.ReceiveBufferSize - 1 - e._receiveBufferIndex)
        ∧ (feed C e xs).1._receiveBuffer.length = C.ReceiveBufferSize
        ∧ (feed C e xs).1._recieveBufferOverflow
          = (e._recieveBufferOverflow
              || decide (C.ReceiveBufferSize - 1 - e._receiveBufferIndex < xs.length)) := by
  intro xs
  induction xs with
  | nil => intro e _ hlen; simp [feed, hlen]
  | cons x t ih =>
    intro e hx hlen
    have hx1 : x ≠ C.PacketMarker := hx x (by simp)
    have ht : ∀ b ∈ t, b ≠ C.PacketMarker := fun b hb => hx b (by simp [hb])
    have hfeed : feed C e (x :: t)
        = ((feed C (onData C e x).engine t).1,
            (onData C e x).effects ++ (feed C (onData C e x).engine t).2) := rfl
    rw [hfeed]
    simp only
    by_cases hc : e._receiveBufferIndex + 1 < C.ReceiveBufferSize
    · have hstep : (onData C e x).engine =
          { e with
            _receiveBuffer := e._receiveBuffer.set e._receiveBufferIndex x
            _receiveBufferIndex := e._receiveBufferIndex + 1 } := by
        rw [onData_data C e x hx1, if_pos hc]
      obtain ⟨i1, i2, i3, i4⟩ := ih (onData C e x).engine ht
        (by rw [onData_length]; exact hlen)
      rw [hstep] at i1 i2 i3 i4
      simp only at i1 i2 i3 i4
      rw [hstep]
      refine ⟨?_, ?_, i3, ?_⟩
      · rw [i1]; simp only [List.length_cons]; omega
      · rw [i2, take_succ_set _ _ _ (by omega)]
        have hk : C.ReceiveBufferSize - 1 - e._receiveBufferIndex
            = (C.ReceiveBufferSize - 1 - (e._receiveBufferIndex + 1)) + 1 := by omega
        rw [hk, List.take_succ_cons]
        simp
      · rw [i4]
        congr 1
        simp only [List.length_cons, decide_eq_decide]
        omega
    · have hstep : (onData C e x).engine = { e with _recieveBufferOverflow := true } := by
        rw [onData_data C e x hx1, if_neg hc]
      obtain ⟨i1, i2, i3, i4⟩ := ih (onData C e x).engine ht
        (by rw [onData_length]; exact hlen)
      rw [hstep] at i1 i2 i3 i4
      simp only at i1 i2 i3 i4
      rw [hstep]
      have hk : C.ReceiveBufferSize - 1 - e._receiveBufferIndex = 0 := by omega
      rw [hk] at i1 i2 i4 ⊢
      refine ⟨?_, ?_, i3, ?_⟩
      · rw [i1]; simp
      · rw [i2]; simp
      · rw [i4]; simp

/-- Feeding bytes other than the marker invokes no handler, calls no codec and keeps
the handler slots. -/
theorem feed_data_quiet (C : Config) :
    ∀ (xs : List Byte) (e : PacketSerial_), (∀ b ∈ xs, b ≠ C.PacketMarker) →
      calls (feed C e xs).2 = []
        ∧ (feed C e xs).1._onPacketFunction = e._onPacketFunction
        ∧ (feed C e xs).1._onPacketFunctionWithSender = e._onPacketFunctionWithSender
        ∧ (feed C e xs).1._senderPtr = e._senderPtr := by
  intro xs
  induction xs with
  | nil => intro e _; simp [feed, calls]
  | cons x t ih =>
    intro e hx
    have hx1 : x ≠ C.PacketMarker := hx x (by simp)
    have ht : ∀ b ∈ t, b ≠ C.PacketMarker := fun b hb => hx b (by simp [hb])
    have hfeed : feed C e (x :: t)
        = ((feed C (onData C e x).engine t).1,
            (onData C e x).effects ++ (feed C (onData C e x).engine t).2) := rfl
    obtain ⟨j1, j2, j3, j4⟩ := ih (onData C e x).engine ht
    obtain ⟨s1, s2, s3⟩ := onData_slots C e x
    rw [hfeed]
    simp only
    refine ⟨?_, by rw [j2, s1], by rw [j3, s2], by rw [j4, s3]⟩
    rw [calls_append, j1]
    rw [onData_data C e x hx1]
    split <;> simp [Step.effects, calls]

/-- One frame received from the start of the buffer: bytes other than the marker, then
the marker.  The handler is invoked once, with the decode of the bytes that were kept
(those that fit below index `ReceiveBufferSize - 1`), and the engine is back at the
start of the buffer with the overflow flag cleared. -/
theorem feed_frame (C : Config) (e : PacketSerial_) (h : HandlerFn) (xs : List Byte)
    (hh : Holds e h) (hlen : e._receiveBuffer.length = C.ReceiveBufferSize)
    (hidx : e._receiveBufferIndex = 0) (hx : ∀ b ∈ xs, b ≠ C.PacketMarker) :
    ∃ c, (feed C e (xs ++ [C.PacketMarker])).2
          = (feed C e xs).2
            ++ [.decode (xs.take (C.ReceiveBufferSize - 1)), .invoke c]
      ∧ calls (feed C e (xs ++ [C.PacketMarker])).2 = [c]
      ∧ c.fn = h
      ∧ c.payload = C.EncoderType.decoded (xs.take (C.ReceiveBufferSize - 1))
      ∧ Holds (feed C e (xs ++ [C.PacketMarker])).1 h
      ∧ (feed C e (xs ++ [C.PacketMarker])).1._receiveBuffer.length = C.ReceiveBufferSize
      ∧ (feed C e (xs ++ [C.PacketMarker])).1._receiveBufferIndex = 0
      ∧ (feed C e (xs ++ [C.PacketMarker])).1._recieveBufferOverflow = false := by
  obtain ⟨d1, d2, d3, _⟩ := feed_data C xs e hx hlen
  obtain ⟨q1, q2, q3, _⟩ := feed_data_quiet C xs e hx
  have hh1 : Holds (feed C e xs).1 h := Holds_of_slots e _ h q2 q3 hh
  obtain ⟨c, hc, hfn, hpay⟩ := onData_marker_holds C (feed C e xs).1 h hh1
  have htake : (feed C e xs).1._receiveBuffer.take (feed C e xs).1._receiveBufferIndex
      = xs.take (C.ReceiveBufferSize - 1) := by
    rw [d2, hidx]; simp
  rw [htake] at hc hpay
  have hfeed : feed C e (xs ++ [C.PacketMarker])
      = ((onData C (feed C e xs).1 C.PacketMarker).engine,
          (feed C e xs).2 ++ (onData C (feed C e xs).1 C.PacketMarker).effects) := by
    rw [feed_append]; simp [feed]
  rw [hfeed, hc]
  refine ⟨c, ?_, ?_, hfn, hpay, ?_, ?_, rfl, rfl⟩
  · simp [Step.effects]
  · simp [Step.effects, calls_append, q1, calls]
  · exact Holds_of_slots (feed C e xs).1 _ h rfl rfl hh1
  · exact d3

/-- When a delivery invokes `h`, every handler invocation made while bytes are fed is
an invocation of `h`, and the slots stay as they are. -/
theorem feed_calls_fn (C : Config) (h : HandlerFn) :
    ∀ (xs : List Byte) (e : PacketSerial_), Holds e h →
      (∀ c ∈ calls (feed C e xs).2, c.fn = h) ∧ Holds (feed C e xs).1 h := by
  intro xs
  induction xs with
  | nil => intro e hh; simpa [feed, calls] using hh
  | cons x t ih =>
    intro e hh
    have hfeed : feed C e (x :: t)
        = ((feed C (onData C e x).engine t).1,
            (onData C e x).effects ++ (feed C (onData C e x).engine t).2) := rfl
    obtain ⟨s1, s2, _⟩ := onData_slots C e x
    have hh1 : Holds (onData C e x).engine h := Holds_of_slots e _ h s1 s2 hh
    obtain ⟨j1, j2⟩ := ih _ hh1
    rw [hfeed]
    refine ⟨?_, j2⟩
    intro c hc
    simp only [calls_append, List.mem_append] at hc
    rcases hc with hc | hc
    · by_cases hm : x = C.PacketMarker
      · obtain ⟨c1, hc1, hfn, _⟩ := onData_marker_holds C e h hh
        rw [hm, hc1] at hc
        simp [Step.effects, calls] at hc
        rw [hc]; exact hfn
      · rw [onData_data C e x hm] at hc
        split at hc <;> simp [Step.effects, calls] at hc
    · exact j1 c hc

theorem written_append (s t : List Event) : written (s ++ t) = written s ++ written t := by
  induction s with
  | nil => rfl
  | cons a s ih => cases a <;> simp [written, ih]

theorem written_map_write (bs : List Byte) : written (bs.map Event.write) = bs := by
  induction bs with
  | nil => rfl
  | cons b t ih => simp [written, ih]

/-- The `for` loop of `send` reads the first `n` elements of the encode buffer. -/
theorem range_map_getD (l : List Byte) (n : Nat) (h : n ≤ l.length) :
    (List.range n).map (fun i => l.getD i 0) = l.take n := by
  apply List.ext_getElem
  · simp [h]
  · intro i h1 h2
    simp only [List.length_map, List.length_range] at h1
    have hi : i < l.length := by omega
    simp [List.getD, hi]

/-- The loop of `update()` only adds to the trace. -/
theorem update_trace_extends (C : Config) (H : Handlers) (w : World) :
    ∃ evs, (update C H w).trace = w.trace ++ evs := by
  have key := loop_invariant C H (fun v => ∃ evs, v.trace = w.trace ++ evs)
    (by
      intro v data rest hv _
      obtain ⟨evs, he⟩ := hv
      exact ⟨evs ++ (onData C v.engine data).effects, by simp [afterBody, he]⟩)
    (by
      intro upd a v hupd hv
      cases a with
      | update => exact hupd v hv
      | send buffer size =>
        obtain ⟨evs, he⟩ := hv
        exact ⟨evs ++ send C buffer size, by simp [performWith, he]⟩
      | setPacketHandler f => exact hv
      | setPacketHandlerWithSender f p => exact hv
      | overflow => exact hv)
    w.rx.length w ⟨[], by simp⟩
  exact key

/-- While only bytes other than the marker are pending no handler runs, so `update()`
is `feed` whatever the handlers are. -/
theorem update_data (C : Config) (H : Handlers) :
    ∀ (xs : List Byte) (e : PacketSerial_) (t : List Event),
      (∀ b ∈ xs, b ≠ C.PacketMarker) →
      update C H ⟨e, xs, t⟩ = ⟨(feed C e xs).1, [], t ++ (feed C e xs).2⟩ := by
  intro xs
  induction xs with
  | nil => intro e t _; simp [update_nil, feed]
  | cons x r ih =>
    intro e t hx
    have hx1 : x ≠ C.PacketMarker := hx x (by simp)
    have hr : ∀ b ∈ r, b ≠ C.PacketMarker := fun b hb => hx b (by simp [hb])
    have hcall : (onData C e x).call = none := by
      rw [onData_data C e x hx1]; split <;> rfl
    rw [update_cons C H _ x r rfl]
    simp only [hcall, runHandler, afterBody]
    rw [ih _ _ hr]
    simp [feed, List.append_assoc]

/-- A set overflow flag survives any run of bytes other than the marker. -/
theorem feed_data_overflow (C : Config) :
    ∀ (xs : List Byte) (e : PacketSerial_), (∀ b ∈ xs, b ≠ C.PacketMarker) →
      e._recieveBufferOverflow = true → (feed C e xs).1._recieveBufferOverflow = true := by
  intro xs
  induction xs with
  | nil => intro e _ h; simpa [feed] using h
  | cons x r ih =>
    intro e hx h
    have hx1 : x ≠ C.PacketMarker := hx x (by simp)
    have hr : ∀ b ∈ r, b ≠ C.PacketMarker := fun b hb => hx b (by simp [hb])
    have hfeed : (feed C e (x :: r)).1 = (feed C (onData C e x).engine r).1 := rfl
    rw [hfeed]
    apply ih _ hr
    rw [onData_data C e x hx1]
    split <;> simp [h]

/-! ## Claims -/

/-- C2 (the code at the boundary): in the four-byte instance, after the bytes 1, 2, 3
have been received the buffer length is 3, so length + 1 is within the capacity 4; yet
the loop body of `update()` does not append the next non-marker byte 4: it leaves the
buffer and its length as they are and sets the overflow flag. -/
theorem onData_rejects_byte_within_capacity :
    (feed smallConfig (construct [0, 0, 0, 0]) [1, 2, 3]).1._receiveBufferIndex + 1
        ≤ smallConfig.ReceiveBufferSize
      ∧ (4 : Byte) ≠ smallConfig.PacketMarker
      ∧ (onData smallConfig (feed smallConfig (construct [0, 0, 0, 0]) [1, 2, 3]).1 4).engine
          = { (feed smallConfig (construct [0, 0, 0, 0]) [1, 2, 3]).1 with
              _recieveBufferOverflow := true }
      ∧ (onData smallConfig
          (feed smallConfig (construct [0, 0, 0, 0]) [1, 2, 3]).1 4).engine._receiveBufferIndex
          = 3
      ∧ (onData smallConfig
          (feed smallConfig (construct [0, 0, 0, 0]) [1, 2, 3]).1 4).engine._recieveBufferOverflow
          = true := by
  decide

/-- C3: from a freshly constructed engine, after any finite sequence of operations
(bytes arriving, `update()`, `send`, either `setPacketHandler`, `overflow()`), and
whatever the handlers do while they run, `_receiveBufferIndex` does not exceed
`ReceiveBufferSize` and every store into `_receiveBuffer` made so far was at an index
strictly below `ReceiveBufferSize`. -/
theorem receive_buffer_bounded (C : Config) (H : Handlers) (mem : List Byte)
    (ops : List Op) :
    (run C H ops (fresh mem)).engine._receiveBufferIndex ≤ C.ReceiveBufferSize
      ∧ ∀ i b, Event.store i b ∈ (run C H ops (fresh mem)).trace →
          i < C.ReceiveBufferSize := by
  have hI : Bounded C (run C H ops (fresh mem)) := by
    apply run_invariant C H (Bounded C)
    · intro w data rest h _
      exact Bounded_afterBody C w data rest h
    · intro upd a w hupd h
      exact Bounded_performWith C upd a w hupd h
    · intro w bytes h
      exact ⟨h.1, h.2⟩
    · refine ⟨Or.inr rfl, ?_⟩
      intro i b hmem
      simp [fresh] at hmem
  refine ⟨?_, hI.2⟩
  rcases hI.1 with h | h
  · exact Nat.le_of_lt h
  · rw [h]; exact Nat.zero_le _

/-- C1: frame independence.  A handler `h` that does not call back is registered on a
freshly constructed engine whose array has `ReceiveBufferSize` elements.  If decode
undoes encode on the payloads `A` and `B`, the encoded payloads do not contain
`PacketMarker` and each is shorter than `ReceiveBufferSize`, then receiving
encode(A), marker, encode(B), marker one byte at a time, with `update()` called after
each byte, invokes `h` exactly twice: first with payload `A`, then with payload `B`. -/
theorem frame_independence (C : Config) (mem : List Byte) (h : HandlerFn)
    (p : Option Ptr) (A B : List Byte)
    (hmem : mem.length = C.ReceiveBufferSize)
    (hA : C.EncoderType.decoded (C.EncoderType.encoded A) = A)
    (hB : C.EncoderType.decoded (C.EncoderType.encoded B) = B)
    (mA : C.PacketMarker ∉ C.EncoderType.encoded A)
    (mB : C.PacketMarker ∉ C.EncoderType.encoded B)
    (lA : (C.EncoderType.encoded A).length < C.ReceiveBufferSize)
    (lB : (C.EncoderType.encoded B).length < C.ReceiveBufferSize) :
    (calls (run C quiet
        (byteByByte (C.EncoderType.encoded A ++ [C.PacketMarker]
          ++ (C.EncoderType.encoded B ++ [C.PacketMarker])))
        { engine := registerHandler (construct mem) h p, rx := [], trace := [] }).trace).map
        (fun c => (c.fn, c.payload))
      = [(h, A), (h, B)] := by
  rw [run_byteByByte_quiet C _ _ rfl]
  simp only [List.nil_append]
  have h0 : Holds (registerHandler (construct mem) h p) h := Holds_registerHandler _ h p
  have l0 : (registerHandler (construct mem) h p)._receiveBuffer.length
      = C.ReceiveBufferSize := by
    cases h with
    | plain f => simpa [registerHandler, setPacketHandler, construct] using hmem
    | withSender g =>
      cases p <;> simpa [registerHandler, setPacketHandlerWithSender, construct] using hmem
  have i0 : (registerHandler (construct mem) h p)._receiveBufferIndex = 0 := by
    cases h with
    | plain f => simp [registerHandler, setPacketHandler, construct]
    | withSender g =>
      cases p <;> simp [registerHandler, setPacketHandlerWithSender, construct]
  have nA : ∀ b ∈ C.EncoderType.encoded A, b ≠ C.PacketMarker :=
    fun b hb hbm => mA (hbm ▸ hb)
  have nB : ∀ b ∈ C.EncoderType.encoded B, b ≠ C.PacketMarker :=
    fun b hb hbm => mB (hbm ▸ hb)
  obtain ⟨c1, _, hc1, f1, p1, hh1, hl1, hi1, _⟩ :=
    feed_frame C _ h (C.EncoderType.encoded A) h0 l0 i0 nA
  obtain ⟨c2, _, hc2, f2, p2, _⟩ :=
    feed_frame C _ h (C.EncoderType.encoded B) hh1 hl1 hi1 nB
  rw [feed_append]
  simp only [calls_append, hc1, hc2]
  rw [List.take_of_length_le (by omega)] at p1 p2
  simp [f1, f2, p1, p2, hA, hB]

/-- C1 at a concrete input: marker `0x00`, four-byte buffer, copying codec, payloads
`[1, 2]` and `[3]`, plain handler 7. -/
theorem frame_independence_witness :
    (calls (run smallConfig quiet
        (byteByByte (smallConfig.EncoderType.encoded [1, 2] ++ [smallConfig.PacketMarker]
          ++ (smallConfig.EncoderType.encoded [3] ++ [smallConfig.PacketMarker])))
        { engine := registerHandler (construct [0, 0, 0, 0]) (.plain 7) none,
          rx := [], trace := [] }).trace).map
        (fun c => (c.fn, c.payload))
      = [(.plain 7, [1, 2]), (.plain 7, [3])] :=
  frame_independence smallConfig [0, 0, 0, 0] (.plain 7) none [1, 2] [3]
    (by decide) (by decide) (by decide) (by decide) (by decide) (by decide) (by decide)

/-- C4 (the code after an overflow): in the four-byte instance with plain handler 7
registered, five bytes other than the marker set the overflow flag and one marker
clears it; the following frame 1, 2, 3, 4 has as many bytes as `ReceiveBufferSize`,
yet on its marker the handler is invoked with the decode of 1, 2, 3 only, not with the
decode of the whole frame. -/
theorem recovery_truncates_frame_of_buffer_size :
    overflow (run smallConfig quiet
        [.call (.setPacketHandler (some 7)), .receive [9, 9, 9, 9, 9], .call .update]
        (fresh [0, 0, 0, 0])).engine = true
      ∧ overflow (run smallConfig quiet
        [.call (.setPacketHandler (some 7)), .receive [9, 9, 9, 9, 9], .call .update,
          .receive [0], .call .update]
        (fresh [0, 0, 0, 0])).engine = false
      ∧ ([1, 2, 3, 4] : List Byte).length ≤ smallConfig.ReceiveBufferSize
      ∧ calls (run smallConfig quiet
        [.call (.setPacketHandler (some 7)), .receive [9, 9, 9, 9, 9], .call .update,
          .receive [0], .call .update, .receive [1, 2, 3, 4, 0], .call .update]
        (fresh [0, 0, 0, 0])).trace
          = [.plain 7 [9, 9, 9] 3, .plain 7 [1, 2, 3] 3]
      ∧ smallConfig.EncoderType.decoded [1, 2, 3, 4] = [1, 2, 3, 4]
      ∧ smallConfig.EncoderType.decoded [1, 2, 3] = [1, 2, 3] := by
  decide

/-- C5: the overflow flag is sticky.  Once it is set, `overflow()` returns true and
changes nothing, every method call other than `update()` (`send`, either
`setPacketHandler`, `overflow()`) leaves it set, and after the loop body of `update()`
has run on a byte the flag is false exactly when that byte is `PacketMarker`, whatever
the handler slots hold. -/
theorem overflow_flag_sticky (C : Config) (e : PacketSerial_)
    (hov : e._recieveBufferOverflow = true) :
    overflow e = true
      ∧ (∀ (upd : World → World) (w : World), performWith C upd .overflow w = w)
      ∧ (∀ (upd : World → World) (a : Action) (rx : List Byte) (t : List Event),
          a ≠ .update →
            overflow (performWith C upd a ⟨e, rx, t⟩).engine = true)
      ∧ (∀ data : Byte,
          overflow (onData C e data).engine = false ↔ data = C.PacketMarker)
      ∧ (∀ (H : Handlers) (xs : List Byte) (t : List Event),
          (∀ b ∈ xs, b ≠ C.PacketMarker) →
            overflow (update C H ⟨e, xs, t⟩).engine = true) := by
  refine ⟨hov, fun _ _ => rfl, ?_, ?_, ?_⟩
  · intro upd a rx t ha
    cases a with
    | update => exact absurd rfl ha
    | send buffer size => exact hov
    | setPacketHandler f => exact hov
    | setPacketHandlerWithSender f p =>
      simp only [performWith, overflow, setPacketHandlerWithSender]
      cases p <;> exact hov
    | overflow => exact hov
  · intro data
    by_cases hm : data = C.PacketMarker
    · simp only [hm, iff_true]
      unfold onData overflow
      rw [if_pos rfl]
      split
      · split
        · rfl
        · split <;> rfl
      · rfl
    · simp only [hm, iff_false]
      rw [onData_data C e data hm]
      unfold overflow
      split <;> simp [hov]
  · intro H xs t hx
    rw [update_data C H xs e t hx]
    exact feed_data_overflow C xs e hx hov

/-- C5 at a concrete state: four-byte instance, flag set, with-sender handler 3. -/
theorem overflow_flag_sticky_witness :
    overflow ⟨true, [1, 2, 3, 0], 3, none, some 3, some .self⟩ = true
      ∧ (∀ (upd : World → World) (w : World), performWith smallConfig upd .overflow w = w)
      ∧ (∀ (upd : World → World) (a : Action) (rx : List Byte) (t : List Event),
          a ≠ .update →
            overflow (performWith smallConfig upd a
              ⟨⟨true, [1, 2, 3, 0], 3, none, some 3, some .self⟩, rx, t⟩).engine = true)
      ∧ (∀ data : Byte,
          overflow (onData smallConfig
              ⟨true, [1, 2, 3, 0], 3, none, some 3, some .self⟩ data).engine = false
            ↔ data = smallConfig.PacketMarker)
      ∧ (∀ (H : Handlers) (xs : List Byte) (t : List Event),
          (∀ b ∈ xs, b ≠ smallConfig.PacketMarker) →
            overflow (update smallConfig H
              ⟨⟨true, [1, 2, 3, 0], 3, none, some 3, some .self⟩, xs, t⟩).engine = true) :=
  overflow_flag_sticky smallConfig ⟨true, [1, 2, 3, 0], 3, none, some 3, some .self⟩ rfl

/-- C7: with both handler slots null, the loop body of `update()` on `PacketMarker`
sets the buffer length to 0 and the overflow flag to false and does nothing else: no
call of `decode`, no handler invocation, the array and the slots as before.  So
`update()` goes on with the remaining bytes from that state with the trace as it was. -/
theorem marker_without_handler (C : Config) (e : PacketSerial_)
    (h1 : e._onPacketFunction = none) (h2 : e._onPacketFunctionWithSender = none) :
    onData C e C.PacketMarker
        = ⟨{ e with _receiveBufferIndex := 0, _recieveBufferOverflow := false }, [], none⟩
      ∧ ∀ (H : Handlers) (rest : List Byte) (t : List Event),
          update C H ⟨e, C.PacketMarker :: rest, t⟩
            = update C H
                ⟨{ e with _receiveBufferIndex := 0, _recieveBufferOverflow := false },
                  rest, t⟩ := by
  have hstep : onData C e C.PacketMarker
      = ⟨{ e with _receiveBufferIndex := 0, _recieveBufferOverflow := false }, [], none⟩ := by
    simp [onData, h1, h2]
  refine ⟨hstep, ?_⟩
  intro H rest t
  rw [update_cons C H _ C.PacketMarker rest rfl]
  simp [hstep, runHandler, afterBody, Step.effects]

/-- C7 at a concrete state: three bytes held, overflow set, no handler. -/
theorem marker_without_handler_witness :
    onData smallConfig ⟨true, [1, 2, 3, 0], 3, none, none, none⟩ smallConfig.PacketMarker
        = ⟨{ (⟨true, [1, 2, 3, 0], 3, none, none, none⟩ : PacketSerial_) with
              _receiveBufferIndex := 0, _recieveBufferOverflow := false }, [], none⟩
      ∧ ∀ (H : Handlers) (rest : List Byte) (t : List Event),
          update smallConfig H
              ⟨⟨true, [1, 2, 3, 0], 3, none, none, none⟩, smallConfig.PacketMarker :: rest, t⟩
            = update smallConfig H
                ⟨{ (⟨true, [1, 2, 3, 0], 3, none, none, none⟩ : PacketSerial_) with
                    _receiveBufferIndex := 0, _recieveBufferOverflow := false },
                  rest, t⟩ :=
  marker_without_handler smallConfig ⟨true, [1, 2, 3, 0], 3, none, none, none⟩ rfl rfl

/-- C6: reset before delivery.  When `update()` reads `PacketMarker` while a delivery
invokes `h`, then at the moment `h` gets control the buffer length is already 0 and the
overflow flag false, `decode` has been called on the bytes accumulated before the
reset and `h` is invoked with its result.  Whatever the handler then does, also calling
`update()` itself, the recorded invocation stays as it is; and when the handler calls
`update()`, the bytes it consumes are processed as a fresh frame, from the reset
state. -/
theorem reset_before_delivery (C : Config) (H : Handlers) (e : PacketSerial_)
    (h : HandlerFn) (rest : List Byte) (t : List Event) (hh : Holds e h) :
    ∃ c, (onData C e C.PacketMarker).call = some c
      ∧ c.fn = h
      ∧ c.payload = C.EncoderType.decoded (e._receiveBuffer.take e._receiveBufferIndex)
      ∧ (afterBody C ⟨e, C.PacketMarker :: rest, t⟩ C.PacketMarker rest).engine
          = { e with _receiveBufferIndex := 0, _recieveBufferOverflow := false }
      ∧ (afterBody C ⟨e, C.PacketMarker :: rest, t⟩ C.PacketMarker rest).trace
          = t ++ [.decode (e._receiveBuffer.take e._receiveBufferIndex), .invoke c]
      ∧ update C H ⟨e, C.PacketMarker :: rest, t⟩
          = update C H (runHandler C H (update C H) (some c)
              (afterBody C ⟨e, C.PacketMarker :: rest, t⟩ C.PacketMarker rest))
      ∧ (∃ evs, (update C H ⟨e, C.PacketMarker :: rest, t⟩).trace
          = t ++ [.decode (e._receiveBuffer.take e._receiveBufferIndex), .invoke c] ++ evs)
      ∧ (H c = [.update] →
          update C H ⟨e, C.PacketMarker :: rest, t⟩
            = update C H
                ⟨{ e with _receiveBufferIndex := 0, _recieveBufferOverflow := false }, rest,
                  t ++ [.decode (e._receiveBuffer.take e._receiveBufferIndex), .invoke c]⟩) := by
  obtain ⟨c, hc, hfn, hpay⟩ := onData_marker_holds C e h hh
  have hab : afterBody C ⟨e, C.PacketMarker :: rest, t⟩ C.PacketMarker rest
      = ⟨{ e with _receiveBufferIndex := 0, _recieveBufferOverflow := false }, rest,
          t ++ [.decode (e._receiveBuffer.take e._receiveBufferIndex), .invoke c]⟩ := by
    simp [afterBody, hc, Step.effects]
  have hcall : (onData C e C.PacketMarker).call = some c := by rw [hc]
  have hupd : update C H ⟨e, C.PacketMarker :: rest, t⟩
      = update C H (runHandler C H (update C H) (some c)
          (afterBody C ⟨e, C.PacketMarker :: rest, t⟩ C.PacketMarker rest)) := by
    rw [update_cons C H _ C.PacketMarker rest rfl]
    simp only [hcall]
  have hpre : ∀ (as : List Action) (v : World),
      (∃ evs, v.trace
        = t ++ [.decode (e._receiveBuffer.take e._receiveBufferIndex), .invoke c] ++ evs) →
      ∃ evs, (as.foldl (fun v a => performWith C (update C H) a v) v).trace
        = t ++ [.decode (e._receiveBuffer.take e._receiveBufferIndex), .invoke c] ++ evs := by
    intro as
    induction as with
    | nil => intro v hv; simpa using hv
    | cons a r ih =>
      intro v hv
      simp only [List.foldl_cons]
      apply ih
      obtain ⟨evs, he⟩ := hv
      cases a with
      | update =>
        obtain ⟨evs1, he1⟩ := update_trace_extends C H v
        exact ⟨evs ++ evs1, by simp [performWith, he1, he]⟩
      | send buffer size => exact ⟨evs ++ send C buffer size, by simp [performWith, he]⟩
      | setPacketHandler f => exact ⟨evs, he⟩
      | setPacketHandlerWithSender f p => exact ⟨evs, he⟩
      | overflow => exact ⟨evs, he⟩
  refine ⟨c, hcall, hfn, hpay, by rw [hab], by rw [hab], hupd, ?_, ?_⟩
  · rw [hupd]
    obtain ⟨evs, he⟩ := hpre (H c)
      (afterBody C ⟨e, C.PacketMarker :: rest, t⟩ C.PacketMarker rest)
      ⟨[], by rw [hab]; simp⟩
    obtain ⟨evs1, he1⟩ := update_trace_extends C H
      (runHandler C H (update C H) (some c)
        (afterBody C ⟨e, C.PacketMarker :: rest, t⟩ C.PacketMarker rest))
    refine ⟨evs ++ evs1, ?_⟩
    rw [he1]
    simp only [runHandler]
    rw [he]
    simp
  · intro hH
    rw [hupd, hab]
    simp only [runHandler, hH, List.foldl_cons, List.foldl_nil, performWith]
    exact update_nil C H _ (update_drains C H _)

/-- C6 at a concrete state: three bytes held, overflow set, plain handler 7 that calls
`update()` while it runs. -/
theorem reset_before_delivery_witness :
    ∃ c, (onData smallConfig ⟨true, [1, 2, 3, 0], 3, some 7, none, none⟩
          smallConfig.PacketMarker).call = some c
      ∧ c.fn = .plain 7
      ∧ c.payload = smallConfig.EncoderType.decoded (([1, 2, 3, 0] : List Byte).take 3)
      ∧ (update smallConfig (fun _ => [.update])
            ⟨⟨true, [1, 2, 3, 0], 3, some 7, none, none⟩,
              smallConfig.PacketMarker :: [5, 6], []⟩).engine
          = ⟨false, [5, 6, 3, 0], 2, some 7, none, none⟩ := by
  obtain ⟨c, h1, h2, h3, _⟩ :=
    reset_before_delivery smallConfig (fun _ => [.update])
      ⟨true, [1, 2, 3, 0], 3, some 7, none, none⟩ (.plain 7) [5, 6] [] rfl
  exact ⟨c, h1, h2, h3, by decide⟩

/-- C8: handler replacement.  After `setPacketHandler(h1)` followed by
`setPacketHandler(h2)` (each of either shape) exactly the slot for the shape of `h2` is
non-null and it holds `h2`.  With handlers that do not call back, the next
`PacketMarker` read by `update()`, after any bytes other than the marker, makes exactly
one handler invocation and it is of `h2`; and for every later input every invocation is
of `h2`, so that `h1`, when it is another function, is never invoked. -/
theorem handler_replacement (C : Config) (e : PacketSerial_) (h1 h2 : HandlerFn)
    (p1 p2 : Option Ptr) :
    ((registerHandler (registerHandler e h1 p1) h2 p2)._onPacketFunction,
        (registerHandler (registerHandler e h1 p1) h2 p2)._onPacketFunctionWithSender)
        = (match h2 with
          | .plain f => (some f, none)
          | .withSender g => (none, some g))
      ∧ (∀ (pre : List Byte) (t : List Event), (∀ b ∈ pre, b ≠ C.PacketMarker) →
          ∃ evs, (update C quiet
              ⟨registerHandler (registerHandler e h1 p1) h2 p2, pre ++ [C.PacketMarker], t⟩).trace
              = t ++ evs
            ∧ (calls evs).map Call.fn = [h2])
      ∧ (∀ (bytes : List Byte) (t : List Event),
          ∃ evs, (update C quiet
              ⟨registerHandler (registerHandler e h1 p1) h2 p2, bytes, t⟩).trace = t ++ evs
            ∧ (∀ c ∈ calls evs, c.fn = h2)
            ∧ (h1 ≠ h2 → ∀ c ∈ calls evs, c.fn ≠ h1)) := by
  have hh : Holds (registerHandler (registerHandler e h1 p1) h2 p2) h2 :=
    Holds_registerHandler _ h2 p2
  refine ⟨?_, ?_, ?_⟩
  · cases h2 with
    | plain f => simp [registerHandler, setPacketHandler]
    | withSender g => cases p2 <;> simp [registerHandler, setPacketHandlerWithSender]
  · intro pre t hpre
    refine ⟨(feed C (registerHandler (registerHandler e h1 p1) h2 p2)
      (pre ++ [C.PacketMarker])).2, by rw [update_quiet], ?_⟩
    obtain ⟨q1, q2, q3, _⟩ :=
      feed_data_quiet C pre (registerHandler (registerHandler e h1 p1) h2 p2) hpre
    have hh1 := Holds_of_slots _ _ h2 q2 q3 hh
    obtain ⟨c, hc, hfn, _⟩ := onData_marker_holds C _ h2 hh1
    rw [feed_append]
    simp [feed, calls_append, q1, hc, Step.effects, calls, hfn]
  · intro bytes t
    obtain ⟨k, _⟩ := feed_calls_fn C h2 bytes _ hh
    refine ⟨(feed C (registerHandler (registerHandler e h1 p1) h2 p2) bytes).2,
      by rw [update_quiet], k, ?_⟩
    intro hne c hc hc1
    exact hne (hc1 ▸ k c hc)

/-- C8 at a concrete input: plain handler 1 replaced by with-sender handler 2; two bytes
and the marker are read. -/
theorem handler_replacement_witness :
    ∃ evs, (update smallConfig quiet
        ⟨registerHandler (registerHandler (construct [0, 0, 0, 0]) (.plain 1) none)
          (.withSender 2) none, [5, 6] ++ [smallConfig.PacketMarker], []⟩).trace = [] ++ evs
      ∧ (calls evs).map Call.fn = [.withSender 2] :=
  (handler_replacement smallConfig (construct [0, 0, 0, 0]) (.plain 1) (.withSender 2)
    none none).2.1 [5, 6] [] (by simp [smallConfig])

/-- C9: the wire format of `send`.  For a non-null buffer and `size > 0`, when the count
`numEncoded` returned by `encode` is within its output array, the bytes written to the
serial port are exactly the first `numEncoded` bytes of the encode output, in order,
followed by one `PacketMarker` and nothing else; `encode` is called once, on the `size`
bytes of the payload; the engine's fields and the pending input are unchanged. -/
theorem send_wire_format (C : Config) (upd : World → World) (w : World) (mem : List Byte)
    (size : Nat) (hs : 0 < size)
    (hn : (C.EncoderType.encode (mem.take size)).2
      ≤ (C.EncoderType.encode (mem.take size)).1.length) :
    written (send C (some mem) size)
        = (C.EncoderType.encode (mem.take size)).1.take (C.EncoderType.encode (mem.take size)).2
          ++ [C.PacketMarker]
      ∧ encodeCalls (send C (some mem) size) = [mem.take size]
      ∧ (performWith C upd (.send (some mem) size) w).engine = w.engine
      ∧ (performWith C upd (.send (some mem) size) w).rx = w.rx
      ∧ (performWith C upd (.send (some mem) size) w).trace
          = w.trace ++ send C (some mem) size := by
  have hs0 : size ≠ 0 := by omega
  have hsend : send C (some mem) size
      = [.getEncodedBufferSize size, .encode (mem.take size)]
        ++ ((C.EncoderType.encode (mem.take size)).1.take
              (C.EncoderType.encode (mem.take size)).2).map Event.write
        ++ [.write C.PacketMarker] := by
    rw [← range_map_getD _ _ hn, List.map_map]
    simp only [send, if_neg hs0]
    rfl
  refine ⟨?_, ?_, rfl, rfl, rfl⟩
  · rw [hsend]
    simp only [written_append, written_map_write]
    simp [written]
  · rw [hsend]
    have hnone : ∀ l : List Byte, ∀ r : List Event,
        encodeCalls (l.map Event.write ++ r) = encodeCalls r := by
      intro l r
      induction l with
      | nil => rfl
      | cons b t ih => simpa [encodeCalls] using ih
    have e1 : [Event.getEncodedBufferSize size, Event.encode (mem.take size)]
          ++ ((C.EncoderType.encode (mem.take size)).1.take
                (C.EncoderType.encode (mem.take size)).2).map Event.write
          ++ [Event.write C.PacketMarker]
        = Event.getEncodedBufferSize size :: Event.encode (mem.take size)
          :: (((C.EncoderType.encode (mem.take size)).1.take
                (C.EncoderType.encode (mem.take size)).2).map Event.write
              ++ [Event.write C.PacketMarker]) := by simp
    rw [e1]
    simp only [encodeCalls, hnone]

/-- C9 at a concrete input: the copying codec, payload `[1, 2]` out of a three-byte
memory block. -/
theorem send_wire_format_witness :
    written (send smallConfig (some [1, 2, 3]) 2) = [1, 2, 0] :=
  (send_wire_format smallConfig id (fresh [0, 0, 0, 0]) [1, 2, 3] 2 (by decide)
    (by decide)).1

/-- C10: `send` with a null buffer or with `size == 0` has no effect at all: no byte is
written (no encoded byte, no marker), the codec is not called, and the engine, the
pending input and the trace are unchanged. -/
theorem send_empty_noop (C : Config) (upd : World → World) (w : World)
    (buffer : Option (List Byte)) (size : Nat) (h : buffer = none ∨ size = 0) :
    send C buffer size = []
      ∧ written (send C buffer size) = []
      ∧ performWith C upd (.send buffer size) w = w := by
  have hsend : send C buffer size = [] := by
    rcases h with h | h
    · rw [h]; rfl
    · rw [h]; cases buffer <;> simp [send]
  refine ⟨hsend, by rw [hsend]; rfl, ?_⟩
  simp [performWith, hsend]

/-- C10 at a concrete input: a valid buffer with `size == 0`. -/
theorem send_empty_noop_witness :
    send smallConfig (some [1, 2, 3]) 0 = []
      ∧ written (send smallConfig (some [1, 2, 3]) 0) = []
      ∧ performWith smallConfig id (.send (some [1, 2, 3]) 0) (fresh [0, 0, 0, 0])
          = fresh [0, 0, 0, 0] :=
  send_empty_noop smallConfig id (fresh [0, 0, 0, 0]) (some [1, 2, 3]) 0 (Or.inr rfl)

/-! ## Deliveries: empty frames and the sender argument -/

/-- The loop body on the marker with the plain slot set: the arguments of the call. -/
theorem onData_marker_plain (C : Config) (e : PacketSerial_) (f : Nat)
    (h1 : e._onPacketFunction = some f) :
    onData C e C.PacketMarker =
      ⟨{ e with _receiveBufferIndex := 0, _recieveBufferOverflow := false },
        [.decode (e._receiveBuffer.take e._receiveBufferIndex)],
        some (.plain f
          (C.EncoderType.decode (e._receiveBuffer.take e._receiveBufferIndex)).1
          (C.EncoderType.decode (e._receiveBuffer.take e._receiveBufferIndex)).2)⟩ := by
  simp [onData, h1]

/-- The loop body on the marker with only the with-sender slot set: the arguments of
the call. -/
theorem onData_marker_withSender (C : Config) (e : PacketSerial_) (g : Nat)
    (h1 : e._onPacketFunction = none) (h2 : e._onPacketFunctionWithSender = some g) :
    onData C e C.PacketMarker =
      ⟨{ e with _receiveBufferIndex := 0, _recieveBufferOverflow := false },
        [.decode (e._receiveBuffer.take e._receiveBufferIndex)],
        some (.withSender g e._senderPtr
          (C.EncoderType.decode (e._receiveBuffer.take e._receiveBufferIndex)).1
          (C.EncoderType.decode (e._receiveBuffer.take e._receiveBufferIndex)).2)⟩ := by
  simp [onData, h1, h2]

/-- The loop body on the marker when a delivery invokes `h`: the call carries the count
returned by `decode`. -/
theorem onData_marker_size (C : Config) (e : PacketSerial_) (h : HandlerFn)
    (hh : Holds e h) :
    ∃ c, onData C e C.PacketMarker =
        ⟨{ e with _receiveBufferIndex := 0, _recieveBufferOverflow := false },
          [.decode (e._receiveBuffer.take e._receiveBufferIndex)], some c⟩
      ∧ c.fn = h
      ∧ c.size = (C.EncoderType.decode (e._receiveBuffer.take e._receiveBufferIndex)).2
      ∧ c.payload = C.EncoderType.decoded (e._receiveBuffer.take e._receiveBufferIndex) := by
  cases h with
  | plain f =>
    simp only [Holds] at hh
    exact ⟨_, onData_marker_plain C e f hh, rfl, rfl, rfl⟩
  | withSender g =>
    simp only [Holds] at hh
    exact ⟨_, onData_marker_withSender C e g hh.1 hh.2, rfl, rfl, rfl⟩

/-- With only the with-sender slot set, every invocation made while bytes are fed is of
that handler and carries the stored sender pointer. -/
theorem feed_calls_sender (C : Config) (g : Nat) :
    ∀ (xs : List Byte) (e : PacketSerial_), e._onPacketFunction = none →
      e._onPacketFunctionWithSender = some g →
      ∀ c ∈ calls (feed C e xs).2,
        ∃ buffer size, c = Call.withSender g e._senderPtr buffer size := by
  intro xs
  induction xs with
  | nil => intro e _ _ c hc; simp [feed, calls] at hc
  | cons x t ih =>
    intro e h1 h2 c hc
    have hfeed : feed C e (x :: t)
        = ((feed C (onData C e x).engine t).1,
            (onData C e x).effects ++ (feed C (onData C e x).engine t).2) := rfl
    obtain ⟨s1, s2, s3⟩ := onData_slots C e x
    rw [hfeed] at hc
    simp only [calls_append, List.mem_append] at hc
    rcases hc with hc | hc
    · by_cases hm : x = C.PacketMarker
      · rw [hm, onData_marker_withSender C e g h1 h2] at hc
        simp [Step.effects, calls] at hc
        exact ⟨_, _, hc⟩
      · rw [onData_data C e x hm] at hc
        split at hc <;> simp [Step.effects, calls] at hc
    · have := ih (onData C e x).engine (by rw [s1]; exact h1) (by rw [s2]; exact h2) c hc
      rw [s3] at this
      exact this

/-! ## The receive path against its reference reading -/

theorem splitFrames_data (marker : Byte) :
    ∀ cur : List Byte, (∀ b ∈ cur, b ≠ marker) → splitFrames marker cur = ([], cur) := by
  intro cur
  induction cur with
  | nil => intro _; rfl
  | cons c cs ih =>
    intro h
    have hc : c ≠ marker := h c (by simp)
    have hcs := ih (fun b hb => h b (by simp [hb]))
    simp [splitFrames, hc, hcs]

theorem splitFrames_frame (marker : Byte) (t : List Byte) :
    ∀ cur : List Byte, (∀ b ∈ cur, b ≠ marker) →
      splitFrames marker (cur ++ marker :: t)
        = (cur :: (splitFrames marker t).1, (splitFrames marker t).2) := by
  intro cur
  induction cur with
  | nil => intro _; simp [splitFrames]
  | cons c cs ih =>
    intro h
    have hc : c ≠ marker := h c (by simp)
    have hcs := ih (fun b hb => h b (by simp [hb]))
    simp [splitFrames, hc, hcs]

/-- The reference reading has one frame per marker of the stream. -/
theorem splitFrames_length (marker : Byte) :
    ∀ bytes : List Byte, (splitFrames marker bytes).1.length = bytes.count marker := by
  intro bytes
  induction bytes with
  | nil => rfl
  | cons b t ih =>
    by_cases hb : b = marker
    · simp [splitFrames, hb, ih]
    · have hne : (b == marker) = false := by simpa using hb
      rw [List.count_cons, hne]
      simp only [splitFrames, if_neg hb]
      cases hs : (splitFrames marker t).1 with
      | nil => rw [hs] at ih; simpa using ih
      | cons f fs => rw [hs] at ih; simpa using ih

theorem take_min_length (l : List Byte) (k : Nat) : l.take (min l.length k) = l.take k := by
  rcases Nat.le_total l.length k with h | h
  · rw [Nat.min_eq_left h, List.take_of_length_le (le_refl _), List.take_of_length_le h]
  · rw [Nat.min_eq_right h]

theorem Tracks_reset (C : Config) (e : PacketSerial_) (cur : List Byte)
    (h : Tracks C e cur) :
    Tracks C { e with _receiveBufferIndex := 0, _recieveBufferOverflow := false } [] := by
  obtain ⟨h1, _⟩ := h
  refine ⟨h1, by simp, by simp, by simp, by simp⟩

theorem Tracks_onData_data (C : Config) (e : PacketSerial_) (cur : List Byte) (b : Byte)
    (hb : b ≠ C.PacketMarker) (h : Tracks C e cur) :
    Tracks C (onData C e b).engine (cur ++ [b]) := by
  obtain ⟨h1, h2, h3, h4, h5⟩ := h
  have hmf : ∀ x ∈ cur ++ [b], x ≠ C.PacketMarker := by
    intro x hx
    simp only [List.mem_append, List.mem_singleton] at hx
    rcases hx with hx | hx
    · exact h5 x hx
    · rw [hx]; exact hb
  rw [onData_data C e b hb]
  by_cases hc : e._receiveBufferIndex + 1 < C.ReceiveBufferSize
  · rw [if_pos hc]
    have hlen : cur.length = e._receiveBufferIndex := by omega
    have hfit : cur.length + 1 ≤ C.ReceiveBufferSize - 1 := by omega
    refine ⟨by simpa using h1, ?_, ?_, ?_, hmf⟩
    · simp only [List.length_append, List.length_singleton]; omega
    · simp only
      rw [take_succ_set _ _ _ (by omega), h3,
        List.take_of_length_le (by omega),
        List.take_of_length_le (by simp only [List.length_append, List.length_singleton]; omega)]
    · simp only [List.length_append, List.length_singleton]
      rw [h4]
      have a1 : ¬ (C.ReceiveBufferSize - 1 < cur.length) := by omega
      have a2 : ¬ (C.ReceiveBufferSize - 1 < cur.length + 1) := by omega
      simp [a1, a2]
  · rw [if_neg hc]
    have hge : C.ReceiveBufferSize - 1 ≤ cur.length := by omega
    refine ⟨h1, ?_, ?_, ?_, hmf⟩
    · simp only [List.length_append, List.length_singleton]; omega
    · simp only
      rw [h3, List.take_append_of_le_length hge]
    · simp only [List.length_append, List.length_singleton]
      have a2 : C.ReceiveBufferSize - 1 < cur.length + 1 := by omega
      simp [a2]

/-- The receive path follows the reference reading: fed from a state that tracks the
bytes `cur` received since the last marker, the handler invocations are the reference
deliveries of `cur ++ bytes` and the final state tracks the bytes after the last
marker. -/
theorem feed_tracks (C : Config) (h : HandlerFn) :
    ∀ (bytes : List Byte) (e : PacketSerial_) (cur : List Byte), Holds e h →
      Tracks C e cur →
      (calls (feed C e bytes).2).map (fun c => (c.fn, c.payload))
          = (referencePayloads C (cur ++ bytes)).map (fun x => (h, x))
        ∧ Tracks C (feed C e bytes).1 (splitFrames C.PacketMarker (cur ++ bytes)).2 := by
  intro bytes
  induction bytes with
  | nil =>
    intro e cur _ ht
    have hs := splitFrames_data C.PacketMarker cur ht.2.2.2.2
    simp only [List.append_nil, referencePayloads, hs]
    exact ⟨by simp [feed, calls], by simpa [feed] using ht⟩
  | cons b t ih =>
    intro e cur hh ht
    have hfeed : feed C e (b :: t)
        = ((feed C (onData C e b).engine t).1,
            (onData C e b).effects ++ (feed C (onData C e b).engine t).2) := rfl
    obtain ⟨s1, s2, _⟩ := onData_slots C e b
    have hh1 : Holds (onData C e b).engine h := Holds_of_slots e _ h s1 s2 hh
    rw [hfeed]
    simp only [calls_append, List.map_append]
    by_cases hm : b = C.PacketMarker
    · obtain ⟨c, hc, hfn, hpay⟩ := onData_marker_holds C e h hh
      have hs := splitFrames_frame C.PacketMarker t cur ht.2.2.2.2
      rw [hm] at hh1 ⊢
      rw [hc] at hh1 ⊢
      obtain ⟨i1, i2⟩ := ih _ [] hh1 (Tracks_reset C e cur ht)
      simp only [List.nil_append] at i1 i2
      rw [i1]
      refine ⟨?_, ?_⟩
      · simp only [referencePayloads, hs, List.map_cons, Step.effects, calls,
          List.nil_append, List.map_nil, List.cons_append, List.singleton_append]
        rw [hfn, hpay, ht.2.2.1, take_min_length]
      · rw [hs]; exact i2
    · obtain ⟨i1, i2⟩ := ih _ (cur ++ [b]) hh1 (Tracks_onData_data C e cur b hm ht)
      have happ : cur ++ [b] ++ t = cur ++ b :: t := by simp
      rw [happ] at i1 i2
      rw [i1]
      refine ⟨?_, i2⟩
      rw [onData_data C e b hm]
      split <;> simp [Step.effects, calls]

/-! ## No marker in the receive buffer -/

theorem mem_take_succ_set (l : List Byte) (n : Nat) (b x : Byte)
    (hx : x ∈ (l.set n b).take (n + 1)) : x ∈ l.take n ∨ x = b := by
  by_cases h : n < l.length
  · rw [take_succ_set l n b h] at hx
    simpa using hx
  · have hle : l.length ≤ n := Nat.le_of_not_lt h
    rw [List.set_eq_of_length_le hle, List.take_of_length_le (by omega)] at hx
    left
    rw [List.take_of_length_le hle]
    exact hx

/-- A byte in the occupied part of the buffer after the loop body was there before, or
is the byte just read and is not the marker. -/
theorem onData_occupied (C : Config) (e : PacketSerial_) (data x : Byte)
    (hx : x ∈ (onData C e data).engine._receiveBuffer.take
      (onData C e data).engine._receiveBufferIndex) :
    x ∈ e._receiveBuffer.take e._receiveBufferIndex ∨ (x = data ∧ data ≠ C.PacketMarker) := by
  by_cases hm : data = C.PacketMarker
  · have he : (onData C e data).engine._receiveBufferIndex = 0 := by
      unfold onData
      rw [if_pos hm]
      split
      · split
        · rfl
        · split <;> rfl
      · rfl
    rw [he] at hx
    simp at hx
  · rw [onData_data C e data hm] at hx
    split at hx
    · rcases mem_take_succ_set _ _ _ _ hx with h | h
      · exact Or.inl h
      · exact Or.inr ⟨h, hm⟩
    · exact Or.inl hx

/-- The only input the loop body hands to `decode` is the occupied part of the buffer. -/
theorem decode_mem_effects (C : Config) (e : PacketSerial_) (data : Byte)
    (input : List Byte) (h : Event.decode input ∈ (onData C e data).effects) :
    input = e._receiveBuffer.take e._receiveBufferIndex := by
  unfold onData Step.effects at h
  split at h
  · split at h
    · split at h
      · simpa using h
      · split at h <;> simpa using h
    · simp at h
  · split at h <;> simp at h

theorem decode_not_mem_send (C : Config) (buffer : Option (List Byte)) (size : Nat)
    (input : List Byte) : Event.decode input ∉ send C buffer size := by
  cases buffer with
  | none => simp [send]
  | some mem =>
    by_cases hs : size = 0
    · simp [send, hs]
    · simp [send, hs]

theorem MarkerFree_afterBody (C : Config) (w : World) (data : Byte) (rest : List Byte)
    (h : MarkerFree C w) : MarkerFree C (afterBody C w data rest) := by
  obtain ⟨h1, h2⟩ := h
  refine ⟨?_, ?_⟩
  · intro x hx
    rcases onData_occupied C w.engine data x hx with hx1 | ⟨hx1, hx2⟩
    · exact h1 x hx1
    · rw [hx1]; exact hx2
  · intro input hin
    simp only [afterBody, List.mem_append] at hin
    rcases hin with hin | hin
    · exact h2 input hin
    · rw [decode_mem_effects C w.engine data input hin]
      intro hmem
      exact h1 _ hmem rfl

theorem MarkerFree_performWith (C : Config) (upd : World → World) (a : Action) (w : World)
    (hupd : ∀ v, MarkerFree C v → MarkerFree C (upd v)) (h : MarkerFree C w) :
    MarkerFree C (performWith C upd a w) := by
  cases a with
  | update => exact hupd w h
  | send buffer size =>
    refine ⟨h.1, ?_⟩
    intro input hin
    simp only [performWith, List.mem_append] at hin
    rcases hin with hin | hin
    · exact h.2 input hin
    · exact absurd hin (decode_not_mem_send C buffer size input)
  | setPacketHandler f => exact ⟨h.1, h.2⟩
  | setPacketHandlerWithSender f p =>
    refine ⟨?_, h.2⟩
    have e1 : (setPacketHandlerWithSender w.engine f p)._receiveBufferIndex
        = w.engine._receiveBufferIndex := by
      unfold setPacketHandlerWithSender
      cases p <;> rfl
    have e2 : (setPacketHandlerWithSender w.engine f p)._receiveBuffer
        = w.engine._receiveBuffer := by
      unfold setPacketHandlerWithSender
      cases p <;> rfl
    simpa [performWith, e1, e2] using h.1
  | overflow => exact h

/-- C11: empty frame delivery.  When a delivery invokes `h` and the receive buffer is
empty, the loop body of `update()` on `PacketMarker` runs `decode` on a zero-length
input and invokes `h` once with the count `decode` returned (so with length zero and an
empty payload when that count is zero); the delivery is not suppressed.  In particular
the second of two consecutive markers, from any state, gives such a delivery, and
afterwards the buffer length is 0 and the overflow flag false. -/
theorem empty_frame_delivered (C : Config) (e : PacketSerial_) (h : HandlerFn)
    (t : List Event) (hh : Holds e h) :
    (e._receiveBufferIndex = 0 →
        ∃ c, onData C e C.PacketMarker =
            ⟨{ e with _receiveBufferIndex := 0, _recieveBufferOverflow := false },
              [.decode []], some c⟩
          ∧ c.fn = h
          ∧ c.size = (C.EncoderType.decode []).2
          ∧ c.payload = C.EncoderType.decoded []
          ∧ ((C.EncoderType.decode []).2 = 0 → c.size = 0 ∧ c.payload = []))
      ∧ ∃ c1 c2, (update C quiet ⟨e, [C.PacketMarker, C.PacketMarker], t⟩).trace
            = t ++ [.decode (e._receiveBuffer.take e._receiveBufferIndex), .invoke c1,
                .decode [], .invoke c2]
          ∧ c2.fn = h
          ∧ c2.size = (C.EncoderType.decode []).2
          ∧ c2.payload = C.EncoderType.decoded []
          ∧ (update C quiet
              ⟨e, [C.PacketMarker, C.PacketMarker], t⟩).engine._receiveBufferIndex = 0
          ∧ overflow (update C quiet
              ⟨e, [C.PacketMarker, C.PacketMarker], t⟩).engine = false := by
  have key : ∀ e0 : PacketSerial_, Holds e0 h → e0._receiveBufferIndex = 0 →
      ∃ c, onData C e0 C.PacketMarker =
          ⟨{ e0 with _receiveBufferIndex := 0, _recieveBufferOverflow := false },
            [.decode []], some c⟩
        ∧ c.fn = h
        ∧ c.size = (C.EncoderType.decode []).2
        ∧ c.payload = C.EncoderType.decoded [] := by
    intro e0 hh0 hi0
    obtain ⟨c, hc, hfn, hsz, hpay⟩ := onData_marker_size C e0 h hh0
    rw [hi0] at hc hsz hpay
    simp only [List.take_zero] at hc hsz hpay
    exact ⟨c, hc, hfn, hsz, hpay⟩
  refine ⟨?_, ?_⟩
  · intro hi
    obtain ⟨c, hc, hfn, hsz, hpay⟩ := key e hh hi
    refine ⟨c, hc, hfn, hsz, hpay, ?_⟩
    intro h0
    refine ⟨by rw [hsz, h0], ?_⟩
    rw [hpay]
    simp [Codec.decoded, h0]
  · obtain ⟨c1, hc1, _, _, _⟩ := onData_marker_size C e h hh
    obtain ⟨c2, hc2, hfn2, hsz2, hpay2⟩ :=
      key { e with _receiveBufferIndex := 0, _recieveBufferOverflow := false }
        (Holds_of_slots e _ h rfl rfl hh) rfl
    refine ⟨c1, c2, ?_, hfn2, hsz2, hpay2, ?_, ?_⟩
    · rw [update_quiet]
      simp [feed, hc1, hc2, Step.effects]
    · rw [update_quiet]
      simp [feed, hc1, hc2]
    · rw [update_quiet]
      simp [feed, hc1, hc2, overflow]

/-- C11 at a concrete input: plain handler 7, three bytes held, two markers read. -/
theorem empty_frame_delivered_witness :
    ∃ c1 c2, (update smallConfig quiet
          ⟨⟨true, [1, 2, 3, 0], 3, some 7, none, none⟩,
            [smallConfig.PacketMarker, smallConfig.PacketMarker], []⟩).trace
          = [] ++ [.decode (([1, 2, 3, 0] : List Byte).take 3), .invoke c1,
              .decode [], .invoke c2]
        ∧ c2.fn = .plain 7
        ∧ c2.size = (smallConfig.EncoderType.decode []).2 :=
  match (empty_frame_delivered smallConfig ⟨true, [1, 2, 3, 0], 3, some 7, none, none⟩
    (.plain 7) [] rfl).2 with
  | ⟨c1, c2, h1, h2, h3, _⟩ => ⟨c1, c2, h1, h2, h3⟩

/-- C12: the sender argument.  After `setPacketHandler(g, q)` with a non-null `q`, the
plain slot is null and every delivery made by `update()` calls `g` with sender `q`;
after `setPacketHandler(g)` or `setPacketHandler(g, nullptr)` the plain slot is null
and every delivery calls `g` with the engine itself as sender.  After
`setPacketHandler` with a plain handler the stored sender pointer is null. -/
theorem sender_argument (C : Config) (e : PacketSerial_) (g : Nat) :
    (∀ q : Ptr,
        (setPacketHandlerWithSender e (some g) (some q))._onPacketFunction = none
          ∧ (∃ buffer size,
              (onData C (setPacketHandlerWithSender e (some g) (some q))
                  C.PacketMarker).call
                = some (.withSender g (some q) buffer size))
          ∧ ∀ (bytes : List Byte) (t : List Event),
              ∃ evs, (update C quiet
                  ⟨setPacketHandlerWithSender e (some g) (some q), bytes, t⟩).trace = t ++ evs
                ∧ ∀ c ∈ calls evs, ∃ buffer size, c = .withSender g (some q) buffer size)
      ∧ ((setPacketHandlerWithSender e (some g) none)._onPacketFunction = none
          ∧ (∃ buffer size,
              (onData C (setPacketHandlerWithSender e (some g) none) C.PacketMarker).call
                = some (.withSender g (some Ptr.self) buffer size))
          ∧ ∀ (bytes : List Byte) (t : List Event),
              ∃ evs, (update C quiet
                  ⟨setPacketHandlerWithSender e (some g) none, bytes, t⟩).trace = t ++ evs
                ∧ ∀ c ∈ calls evs,
                    ∃ buffer size, c = .withSender g (some Ptr.self) buffer size)
      ∧ ∀ f : Option Nat, (setPacketHandler e f)._senderPtr = none := by
  have key : ∀ (p s : Option Ptr),
      (setPacketHandlerWithSender e (some g) p)._senderPtr = s →
      (setPacketHandlerWithSender e (some g) p)._onPacketFunction = none →
      (setPacketHandlerWithSender e (some g) p)._onPacketFunctionWithSender = some g →
      (∃ buffer size,
          (onData C (setPacketHandlerWithSender e (some g) p) C.PacketMarker).call
            = some (.withSender g s buffer size))
        ∧ ∀ (bytes : List Byte) (t : List Event),
            ∃ evs, (update C quiet
                ⟨setPacketHandlerWithSender e (some g) p, bytes, t⟩).trace = t ++ evs
              ∧ ∀ c ∈ calls evs, ∃ buffer size, c = .withSender g s buffer size := by
    intro p s hs h1 h2
    refine ⟨?_, ?_⟩
    · rw [onData_marker_withSender C _ g h1 h2, hs]
      exact ⟨_, _, rfl⟩
    · intro bytes t
      refine ⟨(feed C (setPacketHandlerWithSender e (some g) p) bytes).2,
        by rw [update_quiet], ?_⟩
      intro c hc
      have := feed_calls_sender C g bytes _ h1 h2 c hc
      rw [hs] at this
      exact this
  refine ⟨?_, ?_, fun f => rfl⟩
  · intro q
    exact ⟨rfl, key (some q) (some q) rfl rfl rfl⟩
  · exact ⟨rfl, key none (some Ptr.self) rfl rfl rfl⟩

/-- C13: the receive path against its reference reading.  A handler `h` that does not
call back is registered on a freshly constructed engine whose array has
`ReceiveBufferSize` elements.  For every input stream the handler invocations made by
`update()` are, in order, one per `PacketMarker` of the stream, each of `h` with the
decode of the first `min n (ReceiveBufferSize - 1)` of the `n` bytes received since the
previous marker (or the start); afterwards the buffer holds that prefix of the bytes
after the last marker, and `overflow()` is true exactly when there were more than
`ReceiveBufferSize - 1` of them.  Reading the stream one byte per `update()` call gives
the same. -/
theorem receive_path_reference (C : Config) (mem : List Byte) (h : HandlerFn)
    (p : Option Ptr) (bytes : List Byte) (hmem : mem.length = C.ReceiveBufferSize) :
    (calls (update C quiet ⟨registerHandler (construct mem) h p, bytes, []⟩).trace).map
        (fun c => (c.fn, c.payload))
        = (referencePayloads C bytes).map (fun x => (h, x))
      ∧ (referencePayloads C bytes).length = bytes.count C.PacketMarker
      ∧ (update C quiet
          ⟨registerHandler (construct mem) h p, bytes, []⟩).engine._receiveBufferIndex
          = min (splitFrames C.PacketMarker bytes).2.length (C.ReceiveBufferSize - 1)
      ∧ (update C quiet
          ⟨registerHandler (construct mem) h p, bytes, []⟩).engine._receiveBuffer.take
            (update C quiet
              ⟨registerHandler (construct mem) h p, bytes, []⟩).engine._receiveBufferIndex
          = (splitFrames C.PacketMarker bytes).2.take
              (min (splitFrames C.PacketMarker bytes).2.length (C.ReceiveBufferSize - 1))
      ∧ overflow (update C quiet ⟨registerHandler (construct mem) h p, bytes, []⟩).engine
          = decide (C.ReceiveBufferSize - 1 < (splitFrames C.PacketMarker bytes).2.length)
      ∧ run C quiet (byteByByte bytes) ⟨registerHandler (construct mem) h p, [], []⟩
          = update C quiet ⟨registerHandler (construct mem) h p, bytes, []⟩ := by
  have h0 : Holds (registerHandler (construct mem) h p) h := Holds_registerHandler _ h p
  have t0 : Tracks C (registerHandler (construct mem) h p) [] := by
    cases h with
    | plain f =>
      exact ⟨by simpa [registerHandler, setPacketHandler, construct] using hmem,
        by simp [registerHandler, setPacketHandler, construct],
        by simp [registerHandler, setPacketHandler, construct],
        by simp [registerHandler, setPacketHandler, construct], by simp⟩
    | withSender g =>
      cases p with
      | none =>
        exact ⟨by simpa [registerHandler, setPacketHandlerWithSender, construct] using hmem,
          by simp [registerHandler, setPacketHandlerWithSender, construct],
          by simp [registerHandler, setPacketHandlerWithSender, construct],
          by simp [registerHandler, setPacketHandlerWithSender, construct], by simp⟩
      | some q =>
        exact ⟨by simpa [registerHandler, setPacketHandlerWithSender, construct] using hmem,
          by simp [registerHandler, setPacketHandlerWithSender, construct],
          by simp [registerHandler, setPacketHandlerWithSender, construct],
          by simp [registerHandler, setPacketHandlerWithSender, construct], by simp⟩
  obtain ⟨k1, k2, k3, k4, k5, _⟩ := feed_tracks C h bytes _ [] h0 t0
  simp only [List.nil_append] at k1 k2 k3 k4 k5
  rw [update_quiet]
  simp only [List.nil_append]
  refine ⟨k1, ?_, k3, ?_, ?_, ?_⟩
  · simp [referencePayloads, splitFrames_length]
  · rw [k4, take_min_length]
  · simpa [overflow] using k5
  · rw [run_byteByByte_quiet C bytes _ rfl]
    simp

/-- C13 at a concrete input: four-byte buffer, plain handler 7, a stream with an
overflowing frame, an empty frame and a short frame, then one more byte. -/
theorem receive_path_reference_witness :
    (calls (update smallConfig quiet
        ⟨registerHandler (construct [0, 0, 0, 0]) (.plain 7) none,
          [1, 2, 3, 4, 5, 0, 0, 7, 0, 8], []⟩).trace).map (fun c => (c.fn, c.payload))
      = (referencePayloads smallConfig [1, 2, 3, 4, 5, 0, 0, 7, 0, 8]).map
          (fun x => (HandlerFn.plain 7, x)) :=
  (receive_path_reference smallConfig [0, 0, 0, 0] (.plain 7) none
    [1, 2, 3, 4, 5, 0, 0, 7, 0, 8] (by decide)).1

/-- C14: the receive buffer is marker-free.  From a freshly constructed engine, after
any finite sequence of operations and whatever the handlers do while they run, no
byte in the occupied part of `_receiveBuffer` (the indices below
`_receiveBufferIndex`) equals `PacketMarker`, and no input that was handed to the
codec's `decode` contains `PacketMarker`. -/
theorem receive_buffer_marker_free (C : Config) (H : Handlers) (mem : List Byte)
    (ops : List Op) :
    (∀ b ∈ (run C H ops (fresh mem)).engine._receiveBuffer.take
          (run C H ops (fresh mem)).engine._receiveBufferIndex, b ≠ C.PacketMarker)
      ∧ (∀ i, i < (run C H ops (fresh mem)).engine._receiveBufferIndex →
          (run C H ops (fresh mem)).engine._receiveBuffer[i]? ≠ some C.PacketMarker)
      ∧ ∀ input, Event.decode input ∈ (run C H ops (fresh mem)).trace →
          C.PacketMarker ∉ input := by
  have hI : MarkerFree C (run C H ops (fresh mem)) := by
    apply run_invariant C H (MarkerFree C)
    · intro w data rest h _
      exact MarkerFree_afterBody C w data rest h
    · intro upd a w hupd h
      exact MarkerFree_performWith C upd a w hupd h
    · intro w bytes h
      exact ⟨h.1, h.2⟩
    · refine ⟨?_, ?_⟩
      · intro b hb
        simp [fresh, construct] at hb
      · intro input hin
        simp [fresh] at hin
  refine ⟨hI.1, ?_, hI.2⟩
  intro i hi hget
  have hmem : C.PacketMarker ∈ (run C H ops (fresh mem)).engine._receiveBuffer.take
      (run C H ops (fresh mem)).engine._receiveBufferIndex := by
    rw [List.mem_iff_getElem?]
    exact ⟨i, by rw [List.getElem?_take_of_lt hi]; exact hget⟩
  exact hI.1 _ hmem rfl

end PacketSerial

namespace DPS310

/-- The mask test of `two_complement`: for `val` below `2 * 2 ^ k`, the bit `k` of `val`
is set exactly when `val` is at least `2 ^ k`. -/
theorem and_two_pow_eq (val k : Nat) (hv : val < 2 * 2 ^ k) :
    val &&& 2 ^ k = if val < 2 ^ k then 0 else 2 ^ k := by
  rw [Nat.and_two_pow, Nat.testBit_to_div_mod]
  have hp : 0 < 2 ^ k := Nat.two_pow_pos k
  by_cases h : val < 2 ^ k
  · rw [if_pos h, Nat.div_eq_of_lt h]
    simp
  · rw [if_neg h]
    have h1 : val / 2 ^ k = 1 := by
      apply Nat.div_eq_of_lt_le
      · simpa using Nat.le_of_not_lt h
      · simpa [Nat.mul_comm] using hv
    rw [h1]
    simp

/-- C15: for `1 <= bits <= 31` and `val < 2 ^ bits`, `two_complement(val, bits)` is `val`
when `val < 2 ^ (bits - 1)` and `val - 2 ^ bits` otherwise; so it lies in
`[-2 ^ (bits - 1), 2 ^ (bits - 1))` and differs from `val` by a multiple of
`2 ^ bits`. -/
theorem two_complement_spec (val bits : Nat) (hb1 : 1 ≤ bits) (hb2 : bits ≤ 31)
    (hv : val < 2 ^ bits) :
    two_complement val bits
        = (if val < 2 ^ (bits - 1) then (val : Int) else (val : Int) - 2 ^ bits)
      ∧ -(2 ^ (bits - 1) : Int) ≤ two_complement val bits
      ∧ two_complement val bits < 2 ^ (bits - 1)
      ∧ (two_complement val bits - (val : Int)) % 2 ^ bits = 0 := by
  obtain ⟨k, rfl⟩ : ∃ k, bits = k + 1 := ⟨bits - 1, by omega⟩
  have hk : k ≤ 30 := by omega
  have hP30 : 2 ^ k ≤ 2 ^ 30 := Nat.pow_le_pow_right (by decide) hk
  have hsucc : 2 ^ (k + 1) = 2 * 2 ^ k := by rw [pow_succ]; ring
  have hsuccI : (2 : Int) ^ (k + 1) = 2 * 2 ^ k := by rw [pow_succ]; ring
  have hcast : ((2 ^ k : Nat) : Int) = (2 : Int) ^ k := by push_cast; rfl
  rw [hsucc] at hv
  have hand := and_two_pow_eq val k hv
  have hkey : two_complement val (k + 1)
      = if val < 2 ^ k then (val : Int) else (val : Int) - 2 * ((2 ^ k : Nat) : Int) := by
    simp only [two_complement, toInt32, Nat.add_sub_cancel, Nat.one_shiftLeft, hsucc]
    generalize 2 ^ k = P at *
    have hP : P ≤ 1073741824 := by simpa using hP30
    have hm1 : P % 4294967296 = P := Nat.mod_eq_of_lt (by omega)
    have hm2 : 2 * P % 4294967296 = 2 * P := Nat.mod_eq_of_lt (by omega)
    rw [hm1, hm2, hand]
    split_ifs <;> omega
  rw [hkey]
  simp only [Nat.add_sub_cancel, hsuccI, ← hcast]
  generalize 2 ^ k = P at *
  have hP : P ≤ 1073741824 := by simpa using hP30
  by_cases h : val < P
  · rw [if_pos h]
    refine ⟨trivial, by omega, by omega, by simp⟩
  · rw [if_neg h]
    refine ⟨trivial, by omega, by omega, ?_⟩
    have : (val : Int) - 2 * (P : Int) - (val : Int) = (2 * (P : Int)) * (-1) := by ring
    rw [this, Int.mul_emod_right]

/-- C15 at a concrete input: the 24-bit value `0xFFFFFF` is -1. -/
theorem two_complement_spec_witness :
    two_complement 16777215 24 = -1 := by
  have h := (two_complement_spec 16777215 24 (by decide) (by decide) (by decide)).1
  rw [h]
  decide

end DPS310
